import Mathlib

/-!
Verification of the `peeler` crossword engine: a shallow embedding of
`src/grid.py`, `src/dictionary.py` and `src/solver.py`, with theorems checking
the natural-language specification against the code.

Modelling conventions:
* Python `dict`s become association lists in insertion order: a new key is
  appended at the end, deletion keeps the order of the remaining entries, and
  lookup is by key (first match).
* Python object identity of mutable `PlacedWord` instances is modelled by a
  `pid` token minted from a per-grid counter (`Grid.nextId`); two records are
  the same object iff they carry the same `pid`.
* A letter multiset (`collections.Counter`) is modelled by a `List Char`;
  only its counts are ever observed.
* Wall-clock time is modelled by a boolean oracle `Nat → Bool` consulted once
  per elapsed-time comparison, threaded through as a cursor; quantifying over
  all oracles covers every real schedule of `time.time()` outcomes.
-/

namespace Peeler

/-- The two word axes of `grid.Direction`: `ACROSS = (0, 1)`, `DOWN = (1, 0)`. -/
inductive Direction where
  | across
  | down
deriving DecidableEq

/-- `Direction.value` in the Python enum: `(dr, dc)`. -/
def Direction.val : Direction → Int × Int
  | .across => (0, 1)
  | .down => (1, 0)

/-- The perpendicular axis, computed inline in `Grid.place_word`. -/
def Direction.perp : Direction → Direction
  | .across => .down
  | .down => .across

/-- `Grid.cells`: a Python dict from `(row, col)` to a letter, kept in
insertion order. -/
abbrev Cells := List ((Int × Int) × Char)

/-- Python `self.cells.get((r, c))`. -/
def lookupCell : Cells → Int × Int → Option Char
  | [], _ => none
  | (q, ch) :: rest, p => if q = p then some ch else lookupCell rest p

/-- Python `(r, c) in self.cells`. -/
def memCell (cells : Cells) (p : Int × Int) : Bool :=
  (lookupCell cells p).isSome

/-- Python `del self.cells[pos]`: removes every entry with the key (keys are
unique in any grid built through the `Grid` operations, where a key is only
inserted when absent). -/
def eraseKey : Cells → Int × Int → Cells
  | [], _ => []
  | (q, ch) :: rest, p =>
    if q = p then eraseKey rest p else (q, ch) :: eraseKey rest p

/-- A `for pos in ...: del self.cells[pos]` loop. -/
def eraseKeys (cells : Cells) (ps : List (Int × Int)) : Cells :=
  ps.foldl eraseKey cells

/-- `grid.PlacedWord`; `pid` models Python object identity. -/
structure PlacedWord where
  word : List Char
  row : Int
  col : Int
  direction : Direction
  cells_added : List (Int × Int)
  pid : Nat
deriving DecidableEq

/-- `grid.Grid`; `nextId` is the counter minting `pid` tokens. -/
structure Grid where
  cells : Cells
  placed_words : List PlacedWord
  nextId : Nat
deriving DecidableEq

/-- `Grid.__init__`. -/
def emptyGrid : Grid := ⟨[], [], 0⟩

/-- `Grid.is_empty`. -/
def Grid.isEmptyG (g : Grid) : Bool := g.cells.isEmpty

/-- `Grid.letter_count`. -/
def Grid.letter_count (g : Grid) : Nat := g.cells.length

/-- `Grid._word_positions`. -/
def wordPositions (word : List Char) (row col : Int) (d : Direction) :
    List (Int × Int) :=
  (List.range word.length).map
    (fun (i : Nat) => (row + (i : Int) * d.val.1, col + (i : Int) * d.val.2))

/-- The first `while` loop of `Grid._get_run`, fuel-bounded: from `(r, c)`,
step backwards to `(r - dr, c - dc)` while that cell is occupied; returns the
start of the contiguous run.  (Python probes from `(row - dr, col - dc)` and
steps forward once on exit, which computes the same position.) -/
def runStart (cells : Cells) (dr dc : Int) : Nat → Int → Int → Int × Int
  | 0, r, c => (r, c)
  | fuel + 1, r, c =>
    if memCell cells (r - dr, c - dc) then runStart cells dr dc fuel (r - dr) (c - dc)
    else (r, c)

/-- The second `while` loop of `Grid._get_run`, fuel-bounded: read letters
forward while the cell is occupied. -/
def readRun (cells : Cells) (dr dc : Int) : Nat → Int → Int → List Char
  | 0, _, _ => []
  | fuel + 1, r, c =>
    match lookupCell cells (r, c) with
    | none => []
    | some ch => ch :: readRun cells dr dc fuel (r + dr) (c + dc)

/-- `Grid._get_run`: the full contiguous run of letters through `(row, col)`
in direction `d`.  Both loops get fuel `cells.length + 1`, which the number of
loop iterations can never reach (each step stays inside the occupied cells). -/
def getRun (cells : Cells) (row col : Int) (d : Direction) : List Char :=
  let s := runStart cells d.val.1 d.val.2 (cells.length + 1) row col
  readRun cells d.val.1 d.val.2 (cells.length + 1) s.1 s.2

/-- `dictionary.TrieNode`: terminal flag and insertion-ordered child map. -/
inductive Trie where
  | node (terminal : Bool) (children : List (Char × Trie))

/-- The `is_word` flag of a node. -/
def Trie.isWordFlag : Trie → Bool
  | .node b _ => b

/-- The child map of a node. -/
def Trie.children : Trie → List (Char × Trie)
  | .node _ cs => cs

/-- Python `node.children.get(ch)` (first match in insertion order). -/
def lookupChild : List (Char × Trie) → Char → Option Trie
  | [], _ => none
  | (c, t) :: rest, ch => if c = ch then some t else lookupChild rest ch

/-- Replace the child under a key, or append a new entry at the end (Python
dict insertion order). -/
def updateChild : List (Char × Trie) → Char → Trie → List (Char × Trie)
  | [], ch, t => [(ch, t)]
  | (c, t') :: rest, ch, t =>
    if c = ch then (c, t) :: rest else (c, t') :: updateChild rest ch t

/-- An empty trie node. -/
def Trie.empty : Trie := .node false []

/-- `Dictionary._insert` (the word-count bookkeeping, used only for display,
is omitted). -/
def Trie.insert : Trie → List Char → Trie
  | .node _ cs, [] => .node true cs
  | .node b cs, ch :: rest =>
    let child := (lookupChild cs ch).getD Trie.empty
    .node b (updateChild cs ch (child.insert rest))

/-- Walk the trie along a letter path and test the terminal flag. -/
def walkAccept : Trie → List Char → Bool
  | t, [] => t.isWordFlag
  | t, ch :: rest =>
    match lookupChild t.children ch with
    | none => false
    | some c => walkAccept c rest

/-- `Dictionary.is_valid_word` (the Python upcases its argument first). -/
def Trie.isValidWord (t : Trie) (w : List Char) : Bool :=
  walkAccept t (w.map Char.toUpper)

/-- Python's `max_length or sum(letters.values())` in
`find_words_from_letters`: both `None` and `0` are falsy, so both fall back
to the total number of available letters. -/
def effMaxLen (letters : List Char) : Option Nat → Nat
  | none => letters.length
  | some 0 => letters.length
  | some (k + 1) => k + 1

/-- Erasing a letter that has a positive count shortens the multiset (a
proof term used by the termination argument of `wordsDFS`). -/
def length_erase_lt_of_count (ch : Char) (l : List Char)
    (h : 0 < l.count ch) : (l.erase ch).length < l.length := by
  have hm : ch ∈ l := by
    by_contra hc
    simp [List.count_eq_zero_of_not_mem hc] at h
  have := List.length_erase_of_mem hm
  have : 0 < l.length := List.length_pos.mpr (List.ne_nil_of_mem hm)
  have := List.length_erase_of_mem hm
  omega

/-- The `_search` closure of `Dictionary.find_words_from_letters`: emit the
current path when the node is terminal and deep enough, stop descending at the
depth bound, otherwise visit each child whose letter still has a positive
remaining count (Python's decrement/restore on the `Counter` is modelled by
passing the shrunken multiset down).  The recursion is bounded by an explicit
fuel, kept strictly larger than `remaining.length` at every call: each descent
consumes one remaining letter, so a call that starts with
`fuel = remaining.length + 1` can never exhaust it. -/
def wordsDFS : Nat → Trie → List Char → List Char → Nat → Nat →
    List (List Char)
  | 0, _, _, _, _, _ => []
  | fuel + 1, node, remaining, path, minLen, maxLen =>
    (if node.isWordFlag ∧ minLen ≤ path.length then [path] else []) ++
      (if maxLen ≤ path.length then []
       else (node.children.map (fun pr =>
          if 0 < remaining.count pr.1 then
            wordsDFS fuel pr.2 (remaining.erase pr.1) (path ++ [pr.1])
              minLen maxLen
          else [])).flatten)

/-- `Dictionary.find_words_from_letters`.  The letter multiset is passed by
value (Python copies it with `Counter(letters)`), so the caller's multiset is
unchanged by construction. -/
def findWordsFromLetters (t : Trie) (letters : List Char) (minLength : Nat)
    (maxLength : Option Nat) : List (List Char) :=
  wordsDFS (letters.length + 1) t letters [] minLength
    (effMaxLen letters maxLength)

/-- One perpendicular-run check of `Grid.place_word`: an added cell with an
occupied neighbour on the perpendicular axis must sit in a run that has
length 1 or is a valid dictionary word. -/
def perpBadAt (cells : Cells) (t : Trie) (pd : Direction) (p : Int × Int) : Bool :=
  let hasNeighbor := memCell cells (p.1 + pd.val.1, p.2 + pd.val.2) ||
    memCell cells (p.1 - pd.val.1, p.2 - pd.val.2)
  if hasNeighbor then
    let run := getRun cells p.1 p.2 pd
    decide (1 < run.length) && !(t.isValidWord run)
  else false

/-- The letter-writing loop of `Grid.place_word`: an occupied position must
hold the word's letter (counted as an intersection); an empty position gets
the letter appended to the cell map and is recorded in `cells_added`.
Returns the cells, added positions and intersection count at loop exit, plus
whether the loop finished without a conflict (on a conflict Python breaks out
with the partial writes still in place and rolls them back). -/
def placeLoop : Cells → List ((Int × Int) × Char) → List (Int × Int) → Nat →
    Cells × List (Int × Int) × Nat × Bool
  | cells, [], adds, inters => (cells, adds, inters, true)
  | cells, (p, ch) :: rest, adds, inters =>
    match lookupCell cells p with
    | some existing =>
      if existing = ch then placeLoop cells rest adds (inters + 1)
      else (cells, adds, inters, false)
    | none => placeLoop (cells ++ [(p, ch)]) rest (adds ++ [p]) inters

/-- `Grid.place_word`.  Returns the grid after the call and the placement
record on success (`None` in Python is `none`).  Every rollback `del` loop of
the source is performed on the partially written cell map, so "a rejected call
leaves the grid unchanged" is a theorem below, not a modelling assumption. -/
def Grid.place_word (g : Grid) (word : List Char) (row col : Int)
    (d : Direction) (t : Trie) : Grid × Option PlacedWord :=
  let positions := wordPositions word row col d
  let was_empty := g.isEmptyG
  let before := (row - d.val.1, col - d.val.2)
  let after := (row + (word.length : Int) * d.val.1, col + (word.length : Int) * d.val.2)
  if memCell g.cells before || memCell g.cells after then (g, none)
  else
    match placeLoop g.cells (positions.zip word) [] 0 with
    | (cells1, adds, inters, ok) =>
      if ok = false then ({ g with cells := eraseKeys cells1 adds }, none)
      else if was_empty = false ∧ inters = 0 then
        ({ g with cells := eraseKeys cells1 adds }, none)
      else if adds.any (perpBadAt cells1 t d.perp) then
        ({ g with cells := eraseKeys cells1 adds }, none)
      else
        let pw : PlacedWord := ⟨word, row, col, d, adds, g.nextId⟩
        ({ cells := cells1, placed_words := g.placed_words ++ [pw],
           nextId := g.nextId + 1 }, some pw)

/-- Delete the first list entry carrying the given identity token. -/
def removeFirstPid : List PlacedWord → Nat → List PlacedWord
  | [], _ => []
  | pw :: rest, i => if pw.pid = i then rest else pw :: removeFirstPid rest i

/-- `Grid.remove_word`: delete the record's added cells, then scan
`placed_words` from the end and delete the `is`-identical instance. -/
def Grid.remove_word (g : Grid) (p : PlacedWord) : Grid :=
  { g with cells := eraseKeys g.cells p.cells_added,
           placed_words := (removeFirstPid g.placed_words.reverse p.pid).reverse }

/-- The innermost probe of `Grid.get_valid_placements`: speculatively place
the word; when accepted, record the anchor and immediately undo. -/
def probePlacement (g : Grid) (word : List Char) (sr sc : Int) (d : Direction)
    (t : Trie) : Grid × Option (Int × Int × Direction) :=
  match g.place_word word sr sc d t with
  | (g', some pw) => (g'.remove_word pw, some (sr, sc, d))
  | (g', none) => (g', none)

/-- The `for direction in Direction` loop of `Grid.get_valid_placements`. -/
def gvpDirs : List Direction → Grid → List Char → Int → Int → Nat → Trie →
    Grid × List (Int × Int × Direction)
  | [], g, _, _, _, _, _ => (g, [])
  | d :: ds, g, word, er, ec, i, t =>
    let sr := er - (i : Int) * d.val.1
    let sc := ec - (i : Int) * d.val.2
    match probePlacement g word sr sc d t with
    | (g1, found) =>
      match gvpDirs ds g1 word er ec i t with
      | (g2, rest) => (g2, found.toList ++ rest)

/-- The `for i, ch in enumerate(word)` loop of `Grid.get_valid_placements`. -/
def gvpLetters : List (Nat × Char) → Grid → List Char → Int → Int → Char → Trie →
    Grid × List (Int × Int × Direction)
  | [], g, _, _, _, _, _ => (g, [])
  | (i, ch) :: rest, g, word, er, ec, letter, t =>
    if ch = letter then
      match gvpDirs [Direction.across, Direction.down] g word er ec i t with
      | (g1, ps1) =>
        match gvpLetters rest g1 word er ec letter t with
        | (g2, ps2) => (g2, ps1 ++ ps2)
    else gvpLetters rest g word er ec letter t

/-- The outer `for (er, ec), letter in list(self.cells.items())` loop of
`Grid.get_valid_placements`, iterating over the snapshot of items taken
before any probing. -/
def gvpCells : List ((Int × Int) × Char) → Grid → List Char → Trie →
    Grid × List (Int × Int × Direction)
  | [], g, _, _ => (g, [])
  | (p, letter) :: rest, g, word, t =>
    match gvpLetters word.enum g word p.1 p.2 letter t with
    | (g1, ps1) =>
      match gvpCells rest g1 word t with
      | (g2, ps2) => (g2, ps1 ++ ps2)

/-- `Grid.get_valid_placements`.  The pair also returns the grid after the
probing loop; that it equals the entry grid (no leaked records or cells) is
proved below. -/
def Grid.get_valid_placements (g : Grid) (word : List Char) (t : Trie) :
    Grid × List (Int × Int × Direction) :=
  if g.isEmptyG then (g, [(0, 0, Direction.across)])
  else gvpCells g.cells g word t

/-- `constants.LETTER_DIFFICULTY` (with `.get(ch, 0)` for other characters). -/
def letterDifficulty : Char → Nat
  | 'A' => 0 | 'B' => 3 | 'C' => 3 | 'D' => 2 | 'E' => 0 | 'F' => 4
  | 'G' => 2 | 'H' => 3 | 'I' => 0 | 'J' => 8 | 'K' => 5 | 'L' => 1
  | 'M' => 3 | 'N' => 1 | 'O' => 0 | 'P' => 3 | 'Q' => 10 | 'R' => 1
  | 'S' => 1 | 'T' => 1 | 'U' => 0 | 'V' => 5 | 'W' => 4 | 'X' => 9
  | 'Y' => 3 | 'Z' => 9
  | _ => 0

/-- `solver._word_difficulty`. -/
def wordDifficulty (w : List Char) : Nat := (w.map letterDifficulty).sum

/-- Python code-point-lexicographic string comparison (strict). -/
def strLt : List Char → List Char → Bool
  | [], [] => false
  | [], _ :: _ => true
  | _ :: _, [] => false
  | a :: as, b :: bs => if a = b then strLt as bs else decide (a.toNat < b.toNat)

/-- The ascending order on the sort key `(-difficulty, -len, w)` used by
`solver._sort_candidates`. -/
def candLE (a b : List Char) : Bool :=
  if wordDifficulty a = wordDifficulty b then
    if a.length = b.length then strLt a b || decide (a = b)
    else decide (b.length < a.length)
  else decide (wordDifficulty b < wordDifficulty a)

/-- Stable insertion of `x` into a sorted list: `x` goes before the first
element it compares less-or-equal to, so elements with equal keys keep their
original relative order. -/
def insertSorted (x : List Char) : List (List Char) → List (List Char)
  | [] => [x]
  | y :: ys => if candLE x y then x :: y :: ys else y :: insertSorted x ys

/-- `solver._sort_candidates`.  Python's `sorted` is a stable sort by the key
`(-difficulty, -len, w)`; any stable sort under the same total preorder
produces the identical output, and this one recurses structurally. -/
def sortCandidates : List (List Char) → List (List Char)
  | [] => []
  | w :: ws => insertSorted w (sortCandidates ws)

/-- The dedup key of `_snapshot_grid`: `(pw.word, pw.row, pw.col,
pw.direction.name)`; `cells_added` and the object identity are not compared. -/
def snapKey (pw : PlacedWord) : List Char × Int × Int × Direction :=
  (pw.word, pw.row, pw.col, pw.direction)

/-- The seen-set deduplication loop of `_snapshot_grid`: keep the first
occurrence of each key. -/
def dedupPW (seen : List (List Char × Int × Int × Direction)) :
    List PlacedWord → List PlacedWord
  | [] => []
  | pw :: rest =>
    if snapKey pw ∈ seen then dedupPW seen rest
    else pw :: dedupPW (seen ++ [snapKey pw]) rest

/-- `solver._snapshot_grid`: a fresh grid whose cell map is `dict(grid.cells)`
(a fresh dict with the same entries) and whose record list is the
deduplication of `grid.placed_words`.  The `PlacedWord` values themselves are
shared with the source — Python copies neither the record objects nor their
`cells_added` lists — which the model reflects by keeping their `pid`s. -/
def snapshotGrid (g : Grid) : Grid :=
  { cells := g.cells, placed_words := dedupPW [] g.placed_words,
    nextId := g.nextId }

/-- `grid.cells.values()`. -/
def gridLetters (g : Grid) : List Char := g.cells.map (·.2)

/-- `solve._remaining_letters()[ch]` (a `Counter` entry, possibly negative). -/
def remainingCount (letters : List Char) (g : Grid) (ch : Char) : Int :=
  (letters.count ch : Int) - ((gridLetters g).count ch : Int)

/-- `any(v < 0 for v in r.values())` — a negative entry can only sit at a
letter that occurs on the grid, so scanning the grid letters is equivalent to
scanning the counter's keys. -/
def remainingNegative (letters : List Char) (g : Grid) : Bool :=
  (gridLetters g).any (fun ch => decide (remainingCount letters g ch < 0))

/-- `+_remaining_letters()` (only positive counts) as a concrete multiset:
each hand letter repeated by its positive remaining count.  Only the counts
are observed downstream, so the iteration order of the `Counter` is
irrelevant. -/
def posRemaining (letters : List Char) (g : Grid) : List Char :=
  (letters.dedup.map
    (fun ch => List.replicate (remainingCount letters g ch).toNat ch)).flatten

/-- The `for w in extra` filter of `_backtrack`'s candidate augmentation:
append words not already present that consume at least one unplaced letter. -/
def augAdd (remaining : List Char) : List (List Char) → List (List Char) →
    List (List Char)
  | cands, [] => cands
  | cands, w :: ws =>
    if w ∉ cands ∧ remaining.any (fun ch => decide (0 < w.count ch)) then
      augAdd remaining (cands ++ [w]) ws
    else augAdd remaining cands ws

/-- The `for grid_ch in grid_unique` loop of `_backtrack`: find words over the
unplaced letters plus one copy of a letter already on the grid. -/
def augmentLoop (t : Trie) (remaining : List Char) :
    List Char → List (List Char) → List (List Char)
  | [], cands => cands
  | gch :: rest, cands =>
    let extra := findWordsFromLetters t (remaining ++ [gch]) 2 none
    augmentLoop t remaining rest (augAdd remaining cands extra)

/-- Candidate generation inside `solve._backtrack`: words formable from the
unplaced letters; when at most 4 letters remain unplaced and the grid is
non-empty, also words through one grid letter; then the heuristic sort.
(The result's order does not depend on the arbitrary iteration order of the
Python `set`, because the sort key is injective on distinct words.) -/
def backtrackCandidates (t : Trie) (letters : List Char) (g : Grid) :
    List (List Char) :=
  let remaining := posRemaining letters g
  let base := findWordsFromLetters t remaining 2 none
  let cands :=
    if remaining.length ≤ 4 ∧ g.cells ≠ [] then
      augmentLoop t remaining (gridLetters g).dedup base
    else base
  sortCandidates cands

/-- The mutable search state of `solve`: the working grid, the running best
snapshot with its letter count, the `iterations` counter, and the clock
cursor. -/
structure SearchState where
  grid : Grid
  best : Option Grid
  bestPlaced : Nat
  iters : Nat
  k : Nat
deriving DecidableEq

/-- A short-circuit `cond and time.time() - start_time > timeout`: the clock
oracle is consulted (advancing the cursor) only when `cond` holds. -/
def checkOracle (oracle : Nat → Bool) (k : Nat) (cond : Bool) : Bool × Nat :=
  if cond then (oracle k, k + 1) else (false, k)

/-- The `for row, col, direction in placements` loop of `_backtrack`.
`next` is the recursive call `_backtrack(depth + 1)`. -/
def btPls (t : Trie) (letters : List Char)
    (next : SearchState → SearchState × Bool) (word : List Char) :
    List (Int × Int × Direction) → SearchState → SearchState × Bool
  | [], st => (st, false)
  | (row, col, d) :: pls, st =>
    match st.grid.place_word word row col d t with
    | (g', none) => btPls t letters next word pls { st with grid := g' }
    | (g', some pw) =>
      if remainingNegative letters g' then
        btPls t letters next word pls { st with grid := g'.remove_word pw }
      else
        match next { st with grid := g' } with
        | (st', true) => (st', true)
        | (st', false) =>
          btPls t letters next word pls
            { st' with grid := st'.grid.remove_word pw }

/-- The `for word in candidates` loop of `_backtrack`: try each word's
placements, and after each word's placements run the `iterations % 1000`
timeout check before moving to the next word. -/
def btWords (t : Trie) (letters : List Char) (oracle : Nat → Bool)
    (next : SearchState → SearchState × Bool) :
    List (List Char) → SearchState → SearchState × Bool
  | [], st => (st, false)
  | word :: rest, st =>
    match st.grid.get_valid_placements word t with
    | (g1, placements) =>
      match btPls t letters next word placements { st with grid := g1 } with
      | (st1, true) => (st1, true)
      | (st1, false) =>
        match checkOracle oracle st1.k (st1.iters % 1000 = 0) with
        | (elapsed, k1) =>
          if elapsed then ({ st1 with k := k1 }, false)
          else btWords t letters oracle next rest { st1 with k := k1 }

/-- `solve._backtrack`.  `fuel = 201 - depth`, so Python's `depth > 200`
recursion cap is the `fuel = 0` case; the entry call uses fuel 201. -/
def backtrack (t : Trie) (letters : List Char) (oracle : Nat → Bool) :
    Nat → SearchState → SearchState × Bool
  | 0, st => ({ st with iters := st.iters + 1 }, false)
  | fuel + 1, st =>
    let st1 := { st with iters := st.iters + 1 }
    match checkOracle oracle st1.k (st1.iters % 500 = 0) with
    | (elapsed, k1) =>
      let st2 := { st1 with k := k1 }
      if elapsed then (st2, false)
      else
        let placed_count := st2.grid.letter_count
        let st3 :=
          if st2.bestPlaced < placed_count then
            { st2 with best := some (snapshotGrid st2.grid),
                       bestPlaced := placed_count }
          else st2
        if placed_count = letters.length then (st3, true)
        else if (posRemaining letters st3.grid).isEmpty then (st3, false)
        else
          btWords t letters oracle
            (fun s => backtrack t letters oracle fuel s)
            (backtrackCandidates t letters st3.grid) st3

/-- All letters of the word available in the hand:
`all(word_counter[ch] <= letter_counts[ch] for ch in word_counter)`. -/
def formable (w letters : List Char) : Bool :=
  w.all (fun ch => decide (w.count ch ≤ letters.count ch))

/-- The `for first_word in all_words[:30]` loop of `solve`.  A word whose
letters are not all in the hand is skipped (Python `continue`, which also
skips the trailing timeout check). -/
def solveLoop (t : Trie) (letters : List Char) (oracle : Nat → Bool) :
    List (List Char) → SearchState → Option Grid × SearchState
  | [], st => (none, st)
  | w :: rest, st =>
    if formable w letters then
      match st.grid.place_word w 0 0 .across t with
      | (g', some pw) =>
        match backtrack t letters oracle 201 { st with grid := g' } with
        | (st', true) => (some (snapshotGrid st'.grid), st')
        | (st', false) =>
          let st2 := { st' with grid := st'.grid.remove_word pw }
          if oracle st2.k then (none, { st2 with k := st2.k + 1 })
          else solveLoop t letters oracle rest { st2 with k := st2.k + 1 }
      | (g', none) =>
        let st2 := { st with grid := g' }
        if oracle st2.k then (none, { st2 with k := st2.k + 1 })
        else solveLoop t letters oracle rest { st2 with k := st2.k + 1 }
    else solveLoop t letters oracle rest st

/-- `solver.solve`, with wall-clock comparisons replaced by the oracle.
Returns the snapshot of a complete solution, else the best partial snapshot,
else `none` (console printing omitted). -/
def solve (letters : List Char) (t : Trie) (oracle : Nat → Bool) : Option Grid :=
  let all_words := sortCandidates (findWordsFromLetters t letters 2 none)
  if all_words.isEmpty then none
  else
    match solveLoop t letters oracle (all_words.take 30)
      ⟨emptyGrid, none, 0, 0, 0⟩ with
    | (some g, _) => some g
    | (none, st) => st.best

/-- The `for row, col, direction in placements` loop of `_quick_attach`:
accept the first accepted placement that added exactly one cell, undo any
other accepted placement. -/
def qaTry (t : Trie) (word : List Char) :
    List (Int × Int × Direction) → Grid → Grid × Bool
  | [], g => (g, false)
  | (row, col, d) :: pls, g =>
    match g.place_word word row col d t with
    | (g', none) => qaTry t word pls g'
    | (g', some pw) =>
      if pw.cells_added.length = 1 then (g', true)
      else qaTry t word pls (g'.remove_word pw)

/-- The `for word in candidates` loop of `_quick_attach`, with its
per-iteration timeout check (`break` on expiry). -/
def qaWords (t : Trie) (oracle : Nat → Bool) :
    List (List Char) → Grid → Nat → Grid × Bool × Nat
  | [], g, k => (g, false, k)
  | w :: rest, g, k =>
    if oracle k then (g, false, k + 1)
    else
      match g.get_valid_placements w t with
      | (g1, placements) =>
        match qaTry t w placements g1 with
        | (g2, true) => (g2, true, k + 1)
        | (g2, false) => qaWords t oracle rest g2 (k + 1)

/-- `solver._quick_attach`: words of length 2–3 formable from the full hand
and containing the new letter, tried in trie traversal order. -/
def quickAttach (g : Grid) (newLetter : Char) (allLetters : List Char)
    (t : Trie) (oracle : Nat → Bool) (k : Nat) : Grid × Bool × Nat :=
  let candidates := (findWordsFromLetters t allLetters 2 (some 3)).filter
    (fun w => decide (newLetter ∈ w))
  qaWords t oracle candidates g k

/-- The consumption loop of `_mini_backtrack._get_remaining`: for each added
cell of a non-initial record, consume one copy of its letter from the budget
(Python decrements only when the count is positive, which is exactly
`List.erase`). -/
def consumeCells (cells : Cells) : List (Int × Int) → List Char → List Char
  | [], rem => rem
  | p :: ps, rem =>
    match lookupCell cells p with
    | some ch => consumeCells cells ps (rem.erase ch)
    | none => consumeCells cells ps rem

/-- `_mini_backtrack._get_remaining`: the budget minus the letters placed by
records created after entry (records whose `pid` is not in `initialPids`). -/
def miniRemaining (budget : List Char) (initialPids : List Nat) (g : Grid) :
    List Char :=
  go g.placed_words budget
where
  go : List PlacedWord → List Char → List Char
    | [], rem => rem
    | pw :: rest, rem =>
      if pw.pid ∈ initialPids then go rest rem
      else go rest (consumeCells g.cells pw.cells_added rem)

/-- The `for row, col, direction in placements` loop of `_bt`; `next` is the
recursive `_bt` call. -/
def miniPls (t : Trie) (next : Grid → Nat → Grid × Bool × Nat)
    (word : List Char) :
    List (Int × Int × Direction) → Grid → Nat → Grid × Bool × Nat
  | [], g, k => (g, false, k)
  | (row, col, d) :: pls, g, k =>
    match g.place_word word row col d t with
    | (g', none) => miniPls t next word pls g' k
    | (g', some pw) =>
      match next g' k with
      | (g'', true, k') => (g'', true, k')
      | (g'', false, k') => miniPls t next word pls (g''.remove_word pw) k'

/-- The `for word in usable` loop of `_bt`. -/
def miniWords (t : Trie) (next : Grid → Nat → Grid × Bool × Nat) :
    List (List Char) → Grid → Nat → Grid × Bool × Nat
  | [], g, k => (g, false, k)
  | w :: rest, g, k =>
    match g.get_valid_placements w t with
    | (g1, placements) =>
      match miniPls t next w placements g1 k with
      | (g2, true, k') => (g2, true, k')
      | (g2, false, k') => miniWords t next rest g2 k'

/-- `_mini_backtrack._bt`.  The source recursion has no depth cap and stops
only via its timeout, so the model adds explicit fuel; every terminating run
of the source is reproduced by a large enough fuel.  (The source's
`any(v < 0)` budget check after a placement can never fire, because
`_get_remaining` only decrements positive counts; the model's multiset
representation makes this structural.) -/
def miniBt (t : Trie) (oracle : Nat → Bool) (budget : List Char)
    (initialPids : List Nat) : Nat → Grid → Nat → Grid × Bool × Nat
  | 0, g, k => (g, false, k)
  | fuel + 1, g, k =>
    if oracle k then (g, false, k + 1)
    else
      let rem := miniRemaining budget initialPids g
      if rem.isEmpty then (g, true, k + 1)
      else
        miniWords t (fun g' k' => miniBt t oracle budget initialPids fuel g' k')
          (sortCandidates (findWordsFromLetters t rem 2 none)) g (k + 1)

/-- `solver._mini_backtrack` (its `candidates` parameter is dead in the
source — `_bt` recomputes `usable` from the remaining letters — and is
omitted). -/
def miniBacktrack (g : Grid) (budget : List Char) (t : Trie)
    (oracle : Nat → Bool) (fuel : Nat) (k : Nat) : Grid × Bool × Nat :=
  miniBt t oracle budget (g.placed_words.map (·.pid)) fuel g k

/-- The `for pw in reversed(removed_words)` loop of `_partial_restructure`:
read the letters under the record's added cells (present in every reachable
state; the default is never hit there), then remove the record. -/
def freeWords : Grid → List PlacedWord → List Char → Grid × List Char
  | g, [], acc => (g, acc)
  | g, pw :: rest, acc =>
    let letters := pw.cells_added.map (fun p => (lookupCell g.cells p).getD 'A')
    freeWords (g.remove_word pw) rest (acc ++ letters)

/-- The `for n_remove in range(1, min(4, len + 1))` loop of
`_partial_restructure` (the range is computed once at entry).  On a failed
attempt the grid is restored from the deduplicating snapshot taken at the
start of the attempt.  (`freed_words` is computed in the source but unused by
`_mini_backtrack`.) -/
def restructureLoop (t : Trie) (newLetter : Char) (oracle : Nat → Bool)
    (fuel : Nat) : List Nat → Grid → Nat → Grid × Bool × Nat
  | [], g, k => (g, false, k)
  | n :: ns, g, k =>
    if oracle k then (g, false, k + 1)
    else
      let snapshot := snapshotGrid g
      let removed := g.placed_words.drop (g.placed_words.length - n)
      match freeWords g removed.reverse [] with
      | (g1, freedScan) =>
        let freed := freedScan ++ [newLetter]
        match miniBacktrack g1 freed t oracle fuel (k + 1) with
        | (g2, true, k') => (g2, true, k')
        | (g2, false, k') =>
          restructureLoop t newLetter oracle fuel ns
            { g2 with cells := snapshot.cells,
                      placed_words := snapshot.placed_words } k'

/-- `solver._partial_restructure` (its `all_letters` parameter is unused in
the source and omitted). -/
def restructure (g : Grid) (newLetter : Char) (t : Trie)
    (oracle : Nat → Bool) (fuel : Nat) (k : Nat) : Grid × Bool × Nat :=
  if g.placed_words.isEmpty then (g, false, k)
  else
    restructureLoop t newLetter oracle fuel
      (List.range' 1 (min 3 g.placed_words.length)) g k

/-- `solver.incremental_solve`: the three-strategy cascade.  Budget
arithmetic on wall-clock floats is absorbed into the oracle; the final
`remaining_c >= 3.0` comparison is one oracle read. -/
def incremental_solve (g : Grid) (newLetter : Char) (allLetters : List Char)
    (t : Trie) (oracle : Nat → Bool) (fuel : Nat) : Grid × String :=
  match quickAttach g newLetter allLetters t oracle 0 with
  | (g1, true, _) => (g1, "quick_attach")
  | (g1, false, k1) =>
    match restructure g1 newLetter t oracle fuel k1 with
    | (g2, true, _) => (g2, "partial_restructure")
    | (g2, false, k2) =>
      let unplaced : Int := (allLetters.length : Int) - (g2.letter_count : Int)
      if oracle k2 ∧ 3 ≤ unplaced then
        match solve allLetters t (fun i => oracle (k2 + 1 + i)) with
        | some gNew => (gNew, "full_resolve")
        | none => (g2, "failed")
      else (g2, "failed")

/-! ### Board invariants and the mutation-trace semantics (for §3 of the
spec): the claims quantify over grids reachable through the `Grid`
operations. -/

/-- Two coordinates are grid-adjacent (share an edge). -/
def adjacentCell (p q : Int × Int) : Prop :=
  q = (p.1 + 1, p.2) ∨ q = (p.1 - 1, p.2) ∨ q = (p.1, p.2 + 1) ∨ q = (p.1, p.2 - 1)

/-- Reachability inside the occupied cells by steps between adjacent occupied
coordinates. -/
inductive ReachCells (cells : Cells) : (Int × Int) → (Int × Int) → Prop where
  | refl (p : Int × Int) (h : memCell cells p = true) : ReachCells cells p p
  | tail (p q r : Int × Int) (hpq : ReachCells cells p q)
      (hadj : adjacentCell q r) (hr : memCell cells r = true) :
      ReachCells cells p r

/-- Invariant (b), as a state property: the occupied cells form a single
connected component (no placement is an isolated island). -/
def ConnectedCells (cells : Cells) : Prop :=
  ∀ p q, memCell cells p = true → memCell cells q = true → ReachCells cells p q

/-- Invariant (a): each occupied coordinate holds exactly one letter — the
cell map has no duplicate keys. -/
def KeysDistinct (cells : Cells) : Prop := (cells.map Prod.fst).Nodup

/-- Invariant (d), as a state property: every maximal contiguous run of
length ≥ 2 through an occupied coordinate, in either direction, is a valid
dictionary word (the run is the one computed by the source's `_get_run`). -/
def RunsValid (t : Trie) (cells : Cells) : Prop :=
  ∀ p : Int × Int, memCell cells p = true → ∀ d : Direction,
    2 ≤ (getRun cells p.1 p.2 d).length →
    t.isValidWord (getRun cells p.1 p.2 d) = true

/-- The coordinate `k` steps from `p` along `d` (negative `k` steps back). -/
def ptAlong (p : Int × Int) (d : Direction) (k : Int) : Int × Int :=
  (p.1 + k * d.val.1, p.2 + k * d.val.2)

/-- `[a, b]` brackets the maximal contiguous occupied run through `p`
(offset `0`) along `d`: every offset inside the interval is occupied and the
offsets just outside it on either end are free. -/
def RunBounds (cells : Cells) (p : Int × Int) (d : Direction) (a b : Int) : Prop :=
  a ≤ 0 ∧ 0 ≤ b ∧
  (∀ k : Int, a ≤ k → k ≤ b → memCell cells (ptAlong p d k) = true) ∧
  memCell cells (ptAlong p d (a - 1)) = false ∧
  memCell cells (ptAlong p d (b + 1)) = false

/-- A mutating call of the board lifecycle: a `place_word` call, or a
`remove_word` call handed the most recently placed surviving record (the
LIFO undo discipline of backtracking). -/
inductive GOp where
  | placeOp (word : List Char) (row col : Int) (d : Direction)
  | undoOp

/-- Execute one op; `none` when the op does not apply (a rejected placement,
a word outside the dictionary, or an undo on an empty record list). -/
def execOp (t : Trie) (g : Grid) : GOp → Option Grid
  | .placeOp w row col d =>
    if t.isValidWord w = true then
      match g.place_word w row col d t with
      | (g', some _) => some g'
      | (_, none) => none
    else none
  | .undoOp =>
    match g.placed_words.getLast? with
    | some pw => some (g.remove_word pw)
    | none => none

/-- Execute a trace of ops. -/
def execOps (t : Trie) : List GOp → Grid → Option Grid
  | [], g => some g
  | op :: ops, g =>
    match execOp t g op with
    | some g' => execOps t ops g'
    | none => none

/-- Chains of successful dictionary-word placements starting from the empty
grid, tracked on the observable state (cell map and record sequence); the
identity counter is existentially quantified because undo bumps it. -/
inductive ObsChain (t : Trie) : Cells → List PlacedWord → Prop where
  | nil : ObsChain t [] []
  | cons (cs : Cells) (ps : List PlacedWord) (n : Nat) (w : List Char)
      (row col : Int) (d : Direction) (g' : Grid) (pw : PlacedWord)
      (hc : ObsChain t cs ps) (hw : t.isValidWord w = true)
      (hp : Grid.place_word ⟨cs, ps, n⟩ w row col d t = (g', some pw)) :
      ObsChain t g'.cells g'.placed_words

/-- Modelled from the spec's words, for comparison with `_snapshot_grid`:
"deduplicating any placement records that are structurally identical" —
keep each first occurrence, drop every later record with the same word,
anchor and axis. -/
def specDedup : List PlacedWord → List PlacedWord
  | [] => []
  | pw :: rest =>
    pw :: specDedup (rest.filter (fun q => decide (snapKey q ≠ snapKey pw)))
termination_by l => l.length
decreasing_by
  simp_wf
  exact Nat.lt_succ_of_le (List.length_filter_le _ _)

/-! ### Concrete objects used by witnesses and counterexamples -/

/-- A default record for `Option.getD` in concrete instances. -/
def dummyPW : PlacedWord := ⟨[], 0, 0, .across, [], 0⟩

/-- A dictionary holding only the word AD. -/
def exTrieAD : Trie := Trie.empty.insert ['A', 'D']

/-- AD placed at the origin on an empty grid. -/
def exGridAD : Grid := (emptyGrid.place_word ['A', 'D'] 0 0 .across exTrieAD).1

/-- The record returned by that placement. -/
def exPW1 : PlacedWord :=
  (emptyGrid.place_word ['A', 'D'] 0 0 .across exTrieAD).2.getD dummyPW

/-- A second, structurally identical placement of AD over the same cells. -/
def exGridAD2 : Grid := (exGridAD.place_word ['A', 'D'] 0 0 .across exTrieAD).1

/-- The record returned by the duplicate placement (it adds no cells). -/
def exPW2 : PlacedWord :=
  (exGridAD.place_word ['A', 'D'] 0 0 .across exTrieAD).2.getD dummyPW

/-- A dictionary holding AT and CAT. -/
def exTrieATCAT : Trie := (Trie.empty.insert ['A', 'T']).insert ['C', 'A', 'T']

/-- AT placed at the origin on an empty grid (dictionary AT, CAT). -/
def exGridAT : Grid := (emptyGrid.place_word ['A', 'T'] 0 0 .across exTrieATCAT).1

/-- A dictionary holding AB and ACCA. -/
def exTrieACCA : Trie := (Trie.empty.insert ['A', 'B']).insert ['A', 'C', 'C', 'A']

/-- AB placed at the origin (dictionary AB, ACCA). -/
def exGridAB : Grid := (emptyGrid.place_word ['A', 'B'] 0 0 .across exTrieACCA).1

/-- The record of that AB placement. -/
def exPWAB : PlacedWord :=
  (emptyGrid.place_word ['A', 'B'] 0 0 .across exTrieACCA).2.getD dummyPW

/-- ACCA placed downward through the A of AB. -/
def exGridACCA : Grid :=
  (exGridAB.place_word ['A', 'C', 'C', 'A'] 0 0 .down exTrieACCA).1

/-! ### Concrete boards for the C1 counterexample -/


/-- The AT record of `exGridAT`. -/
def exPWAT : PlacedWord :=
  (emptyGrid.place_word ['A', 'T'] 0 0 .across exTrieATCAT).2.getD dummyPW

/-- CAT placed at (0, -1) across over the grid holding AT: a successful call
whose C-cell sits immediately before the earlier word AT. -/
def exGridCAT : Grid :=
  (exGridAT.place_word ['C', 'A', 'T'] 0 (-1) .across exTrieATCAT).1

/-- AB placed at the origin against an empty dictionary. -/
def exGridABnd : Grid :=
  (emptyGrid.place_word ['A', 'B'] 0 0 .across Trie.empty).1

/-- The board after removing the AB record from under ACCA (a removal that
does not target the most recent placement). -/
def exGridCCA : Grid := exGridACCA.remove_word exPWAB

/-- A dictionary holding only DAD. -/
def exTrieDAD : Trie := Trie.empty.insert ['D', 'A', 'D']

/-- The always-false clock oracle: the timeout never elapses. -/
def oracleNever : Nat → Bool := fun _ => false

/-- The always-true clock oracle: the deadline has already elapsed at every
single `time.time()` comparison of the run. -/
def oracleAlways : Nat → Bool := fun _ => true

/-- Well-formedness of a trie: every node's child map has pairwise-distinct
letters.  `_insert` adds a key only when it is absent, so every dictionary
built through the API satisfies this. -/
inductive TrieWF : Trie → Prop where
  | node (b : Bool) (cs : List (Char × Trie))
      (hnd : (cs.map Prod.fst).Nodup)
      (hkids : ∀ p ∈ cs, TrieWF p.2) : TrieWF (.node b cs)

/-- A dictionary built by inserting a list of words into an empty trie. -/
def trieOfWords (ws : List (List Char)) : Trie :=
  ws.foldl Trie.insert Trie.empty

/-! ### Basic lemmas about the cell map -/

theorem lookupCell_append (a b : Cells) (p : Int × Int) :
    lookupCell (a ++ b) p = ((lookupCell a p).or (lookupCell b p)) := by
  induction a with
  | nil => simp [lookupCell]
  | cons e rest ih =>
    obtain ⟨q, ch⟩ := e
    by_cases h : q = p <;> simp [lookupCell, h, ih]

theorem lookupCell_append_of_none {a : Cells} {p : Int × Int}
    (h : lookupCell a p = none) (b : Cells) :
    lookupCell (a ++ b) p = lookupCell b p := by
  simp [lookupCell_append, h]

theorem lookupCell_append_of_some {a : Cells} {p : Int × Int} {ch : Char}
    (h : lookupCell a p = some ch) (b : Cells) :
    lookupCell (a ++ b) p = some ch := by
  simp [lookupCell_append, h]

theorem memCell_append (a b : Cells) (p : Int × Int) :
    memCell (a ++ b) p = (memCell a p || memCell b p) := by
  unfold memCell
  rw [lookupCell_append]
  cases lookupCell a p <;> simp

theorem memCell_false_iff (l : Cells) (p : Int × Int) :
    memCell l p = false ↔ lookupCell l p = none := by
  unfold memCell
  cases lookupCell l p <;> simp

theorem memCell_of_mem {l : Cells} {e : (Int × Int) × Char} (h : e ∈ l) :
    memCell l e.1 = true := by
  induction l with
  | nil => cases h
  | cons f rest ih =>
    obtain ⟨q, ch⟩ := f
    rcases List.mem_cons.mp h with rfl | h'
    · simp [memCell, lookupCell]
    · by_cases hq : q = e.1
      · simp [memCell, lookupCell, hq]
      · have := ih h'
        simpa [memCell, lookupCell, hq] using this

theorem memCell_iff_mem_keys (l : Cells) (p : Int × Int) :
    memCell l p = true ↔ p ∈ l.map Prod.fst := by
  constructor
  · intro h
    induction l with
    | nil => simp [memCell, lookupCell] at h
    | cons e rest ih =>
      obtain ⟨q, ch⟩ := e
      by_cases hq : q = p
      · simp [hq]
      · simp [memCell, lookupCell, hq] at h
        simpa [hq] using Or.inr (ih h)
  · intro h
    rcases List.mem_map.mp h with ⟨e, he, rfl⟩
    exact memCell_of_mem he

theorem eraseKey_eq_filter (l : Cells) (p : Int × Int) :
    eraseKey l p = l.filter (fun e => decide (e.1 ≠ p)) := by
  induction l with
  | nil => simp [eraseKey]
  | cons e rest ih =>
    obtain ⟨q, ch⟩ := e
    by_cases h : q = p <;> simp [eraseKey, h, ih]

theorem eraseKeys_eq_filter (ks : List (Int × Int)) (l : Cells) :
    eraseKeys l ks = l.filter (fun e => decide (e.1 ∉ ks)) := by
  induction ks generalizing l with
  | nil => simp [eraseKeys]
  | cons k ks ih =>
    show eraseKeys (eraseKey l k) ks = _
    rw [ih, eraseKey_eq_filter, List.filter_filter]
    apply List.filter_congr
    intro e _
    by_cases h1 : e.1 = k <;> by_cases h2 : e.1 ∈ ks <;> simp [h1, h2]

theorem eraseKeys_append (a b : Cells) (ks : List (Int × Int)) :
    eraseKeys (a ++ b) ks = eraseKeys a ks ++ eraseKeys b ks := by
  simp [eraseKeys_eq_filter]

theorem eraseKeys_of_fresh {a : Cells} {ks : List (Int × Int)}
    (h : ∀ p ∈ ks, memCell a p = false) : eraseKeys a ks = a := by
  rw [eraseKeys_eq_filter]
  apply List.filter_eq_self.mpr
  intro e he
  simp only [decide_eq_true_eq]
  intro hk
  have := memCell_of_mem he
  rw [h e.1 hk] at this
  cases this

theorem eraseKeys_self {es : Cells} {ks : List (Int × Int)}
    (h : ∀ e ∈ es, e.1 ∈ ks) : eraseKeys es ks = [] := by
  rw [eraseKeys_eq_filter]
  apply List.filter_eq_nil_iff.mpr
  intro e he
  simp [h e he]

/-- Rolling back freshly appended entries restores the original cell map. -/
theorem rollback_append {cells es : Cells}
    (hfresh : ∀ e ∈ es, memCell cells e.1 = false) :
    eraseKeys (cells ++ es) (es.map Prod.fst) = cells := by
  rw [eraseKeys_append]
  have h1 : eraseKeys es (es.map Prod.fst) = [] :=
    eraseKeys_self (fun e he => List.mem_map_of_mem Prod.fst he)
  have h2 : eraseKeys cells (es.map Prod.fst) = cells := by
    apply eraseKeys_of_fresh
    intro p hp
    rcases List.mem_map.mp hp with ⟨e, he, rfl⟩
    exact hfresh e he
  rw [h1, h2, List.append_nil]

/-! ### The letter-writing loop of `place_word` -/

theorem placeLoop_spec (ps : List ((Int × Int) × Char)) :
    ∀ (cells : Cells) (adds0 : List (Int × Int)) (inters0 : Nat),
      ∃ es : Cells,
        (placeLoop cells ps adds0 inters0).1 = cells ++ es ∧
        (placeLoop cells ps adds0 inters0).2.1 = adds0 ++ es.map Prod.fst ∧
        (∀ e ∈ es, memCell cells e.1 = false) ∧
        (es.map Prod.fst).Nodup ∧
        (∀ e ∈ es, e ∈ ps) ∧
        ((placeLoop cells ps adds0 inters0).2.2.2 = true →
          ∀ pc ∈ ps, lookupCell (placeLoop cells ps adds0 inters0).1 pc.1 = some pc.2) := by
  induction ps with
  | nil =>
    intro cells adds0 inters0
    exact ⟨[], by simp [placeLoop]⟩
  | cons pc rest ih =>
    intro cells adds0 inters0
    obtain ⟨p, ch⟩ := pc
    rcases hl : lookupCell cells p with _ | ex
    · -- empty cell: write the letter
      have hstep : placeLoop cells ((p, ch) :: rest) adds0 inters0 =
          placeLoop (cells ++ [(p, ch)]) rest (adds0 ++ [p]) inters0 := by
        simp [placeLoop, hl]
      obtain ⟨es, h1, h2, h3, h4, h5, h6⟩ := ih (cells ++ [(p, ch)]) (adds0 ++ [p]) inters0
      refine ⟨(p, ch) :: es, ?_, ?_, ?_, ?_, ?_, ?_⟩
      · rw [hstep, h1, List.append_assoc]
        rfl
      · rw [hstep, h2, List.append_assoc]
        rfl
      · intro e he
        rcases List.mem_cons.mp he with rfl | he'
        · simpa [memCell] using hl
        · have := h3 e he'
          rw [memCell_append] at this
          exact (Bool.or_eq_false_iff.mp this).1
      · refine List.nodup_cons.mpr ⟨?_, h4⟩
        intro hmem
        rcases List.mem_map.mp hmem with ⟨e, he, heq⟩
        have := h3 e he
        rw [memCell_append, heq] at this
        have h2' := (Bool.or_eq_false_iff.mp this).2
        simp [memCell, lookupCell] at h2'
      · intro e he
        rcases List.mem_cons.mp he with rfl | he'
        · exact List.mem_cons_self _ _
        · exact List.mem_cons_of_mem _ (h5 e he')
      · intro hok pc' hpc'
        rw [hstep] at hok ⊢
        rcases List.mem_cons.mp hpc' with rfl | hpc''
        · rw [h1]
          refine lookupCell_append_of_some ?_ es
          rw [lookupCell_append_of_none hl]
          simp [lookupCell]
        · exact h6 hok pc' hpc''
    · -- occupied cell: must match
      by_cases hmatch : ex = ch
      · subst hmatch
        have hstep : placeLoop cells ((p, ex) :: rest) adds0 inters0 =
            placeLoop cells rest adds0 (inters0 + 1) := by
          simp [placeLoop, hl]
        obtain ⟨es, h1, h2, h3, h4, h5, h6⟩ := ih cells adds0 (inters0 + 1)
        refine ⟨es, ?_, ?_, h3, h4, ?_, ?_⟩
        · rw [hstep, h1]
        · rw [hstep, h2]
        · intro e he
          exact List.mem_cons_of_mem _ (h5 e he)
        · intro hok pc' hpc'
          rw [hstep] at hok ⊢
          rcases List.mem_cons.mp hpc' with rfl | hpc''
          · rw [h1]
            exact lookupCell_append_of_some hl es
          · exact h6 hok pc' hpc''
      · refine ⟨[], ?_, ?_, by simp, by simp, by simp, ?_⟩
        · simp [placeLoop, hl, hmatch]
        · simp [placeLoop, hl, hmatch]
        · intro hok
          simp [placeLoop, hl, hmatch] at hok

/-- If the intersection counter moved, some word position already held the
matching letter in the original cell map. -/
theorem placeLoop_inters_pos (ps : List ((Int × Int) × Char))
    (hnd : (ps.map Prod.fst).Nodup) :
    ∀ (cells : Cells) (adds0 : List (Int × Int)) (inters0 : Nat),
      inters0 < (placeLoop cells ps adds0 inters0).2.2.1 →
      ∃ pc ∈ ps, lookupCell cells pc.1 = some pc.2 := by
  induction ps with
  | nil =>
    intro cells adds0 inters0 h
    simp [placeLoop] at h
  | cons pc rest ih =>
    intro cells adds0 inters0 h
    obtain ⟨p, ch⟩ := pc
    have hnd' : (rest.map Prod.fst).Nodup := (List.nodup_cons.mp hnd).2
    have hpnotin : p ∉ rest.map Prod.fst := (List.nodup_cons.mp hnd).1
    rcases hl : lookupCell cells p with _ | ex
    · have hstep : placeLoop cells ((p, ch) :: rest) adds0 inters0 =
          placeLoop (cells ++ [(p, ch)]) rest (adds0 ++ [p]) inters0 := by
        simp [placeLoop, hl]
      rw [hstep] at h
      obtain ⟨pc', hpc', hlk⟩ := ih hnd' (cells ++ [(p, ch)]) (adds0 ++ [p]) inters0 h
      refine ⟨pc', List.mem_cons_of_mem _ hpc', ?_⟩
      have hne : pc'.1 ≠ p := by
        intro hq
        exact hpnotin (hq ▸ List.mem_map_of_mem Prod.fst hpc')
      rw [lookupCell_append] at hlk
      rcases hcase : lookupCell cells pc'.1 with _ | v
      · rw [hcase] at hlk
        simp [lookupCell, Ne.symm hne] at hlk
      · rw [hcase] at hlk
        simpa using hlk
    · by_cases hmatch : ex = ch
      · exact ⟨(p, ch), List.mem_cons_self _ _, hmatch ▸ hl⟩
      · have : placeLoop cells ((p, ch) :: rest) adds0 inters0 =
            (cells, adds0, inters0, false) := by
          simp [placeLoop, hl, hmatch]
        rw [this] at h
        simp at h

/-- The coordinate path of a word has no repeated coordinates. -/
theorem wordPositions_nodup (w : List Char) (row col : Int) (d : Direction) :
    (wordPositions w row col d).Nodup := by
  unfold wordPositions
  apply List.Nodup.map ?_ (List.nodup_range _)
  intro i j hij
  cases d <;>
    · simp only [Direction.val] at hij
      obtain ⟨h1, h2⟩ := Prod.mk.injEq .. ▸ hij
      omega

/-! ### `place_word` specifications -/

/-- A rejected `place_word` call leaves the grid exactly as it was: all
partial writes are rolled back. -/
theorem place_word_none {g : Grid} {w : List Char} {row col : Int}
    {d : Direction} {t : Trie} {g' : Grid}
    (h : g.place_word w row col d t = (g', none)) : g' = g := by
  unfold Grid.place_word at h
  by_cases hba : (memCell g.cells (row - d.val.1, col - d.val.2) ||
      memCell g.cells (row + (w.length : Int) * d.val.1,
        col + (w.length : Int) * d.val.2)) = true
  · rw [if_pos hba] at h
    exact (Prod.mk.injEq .. ▸ h).1.symm
  · rw [if_neg hba] at h
    obtain ⟨es, he1, he2, he3, he4, he5, he6⟩ :=
      placeLoop_spec ((wordPositions w row col d).zip w) g.cells [] 0
    rcases hq : placeLoop g.cells ((wordPositions w row col d).zip w) [] 0 with
      ⟨c1, a1, i1, ok⟩
    rw [hq] at he1 he2 h
    simp only at he1 he2
    dsimp only at h
    have hroll : eraseKeys c1 a1 = g.cells := by
      rw [he1, he2]
      simpa using rollback_append he3
    have hgrid : { g with cells := eraseKeys c1 a1 } = g := by
      rw [hroll]
    split_ifs at h with h1 h2 h3
    · rw [hgrid] at h
      exact (Prod.mk.injEq .. ▸ h).1.symm
    · rw [hgrid] at h
      exact (Prod.mk.injEq .. ▸ h).1.symm
    · rw [hgrid] at h
      exact (Prod.mk.injEq .. ▸ h).1.symm
    · exact absurd (Prod.mk.injEq .. ▸ h).2 (by simp)

/-- Full specification of a successful `place_word` call. -/
theorem place_word_some {g : Grid} {w : List Char} {row col : Int}
    {d : Direction} {t : Trie} {g' : Grid} {pw : PlacedWord}
    (h : g.place_word w row col d t = (g', some pw)) :
    ∃ es : Cells,
      pw = ⟨w, row, col, d, es.map Prod.fst, g.nextId⟩ ∧
      g'.cells = g.cells ++ es ∧
      g'.placed_words = g.placed_words ++ [pw] ∧
      g'.nextId = g.nextId + 1 ∧
      (∀ e ∈ es, memCell g.cells e.1 = false) ∧
      (es.map Prod.fst).Nodup ∧
      (∀ e ∈ es, e ∈ (wordPositions w row col d).zip w) ∧
      (∀ pc ∈ (wordPositions w row col d).zip w,
        lookupCell g'.cells pc.1 = some pc.2) ∧
      memCell g.cells (row - d.val.1, col - d.val.2) = false ∧
      memCell g.cells (row + (w.length : Int) * d.val.1,
        col + (w.length : Int) * d.val.2) = false ∧
      (g.cells = [] ∨ ∃ pc ∈ (wordPositions w row col d).zip w,
        lookupCell g.cells pc.1 = some pc.2) ∧
      (∀ p ∈ es.map Prod.fst, perpBadAt g'.cells t d.perp p = false) := by
  unfold Grid.place_word at h
  by_cases hba : (memCell g.cells (row - d.val.1, col - d.val.2) ||
      memCell g.cells (row + (w.length : Int) * d.val.1,
        col + (w.length : Int) * d.val.2)) = true
  · rw [if_pos hba] at h
    exact absurd (Prod.mk.injEq .. ▸ h).2 (by simp)
  · rw [if_neg hba] at h
    obtain ⟨es, he1, he2, he3, he4, he5, he6⟩ :=
      placeLoop_spec ((wordPositions w row col d).zip w) g.cells [] 0
    have hint := placeLoop_inters_pos ((wordPositions w row col d).zip w)
      (by
        have hlen : (wordPositions w row col d).length = w.length := by
          simp [wordPositions]
        rw [List.map_fst_zip _ _ (le_of_eq hlen)]
        exact wordPositions_nodup w row col d)
      g.cells [] 0
    rcases hq : placeLoop g.cells ((wordPositions w row col d).zip w) [] 0 with
      ⟨c1, a1, i1, ok⟩
    rw [hq] at he1 he2 he6 hint h
    simp only at he1 he2 he6 hint
    dsimp only at h
    split_ifs at h with h1 h2 h3
    · exact absurd (Prod.mk.injEq .. ▸ h).2 (by simp)
    · exact absurd (Prod.mk.injEq .. ▸ h).2 (by simp)
    · exact absurd (Prod.mk.injEq .. ▸ h).2 (by simp)
    · -- success branch
      obtain ⟨hg', hpw⟩ := Prod.mk.injEq .. ▸ h
      have hok : ok = true := by
        by_contra hok'
        exact h1 (by simpa using hok')
      have hpw2 : (⟨w, row, col, d, a1, g.nextId⟩ : PlacedWord) = pw :=
        Option.some.inj hpw
      subst hpw2
      subst hg'
      have ha1 : a1 = es.map Prod.fst := by simpa using he2
      refine ⟨es, by rw [ha1], ?_, rfl, rfl, he3, he4, he5, ?_, ?_, ?_, ?_, ?_⟩
      · exact he1
      · intro pc hpc
        exact he6 hok pc hpc
      · simpa using (Bool.or_eq_false_iff.mp (by simpa using hba)).1
      · simpa using (Bool.or_eq_false_iff.mp (by simpa using hba)).2
      · -- first word or at least one intersection
        by_cases hemp : g.cells = []
        · exact Or.inl hemp
        · refine Or.inr (hint ?_)
          rcases Nat.eq_zero_or_pos i1 with hz | hp
          · exfalso
            apply h2
            constructor
            · simpa [Grid.isEmptyG, List.isEmpty_iff] using hemp
            · exact hz
          · exact hp
      · intro p hp
        have hany : a1.any (perpBadAt c1 t d.perp) = false := by
          by_contra hco
          exact h3 (by simpa using hco)
        rw [ha1] at hany
        simp only [List.any_eq_false] at hany
        have := hany p (by simpa using hp)
        show perpBadAt c1 t d.perp p = false
        simpa using this

/-- Removing the record that sits at the end of the placement list deletes
exactly that record. -/
theorem remove_word_append_last (cs : Cells) (ps : List PlacedWord) (n : Nat)
    (pw : PlacedWord) :
    Grid.remove_word ⟨cs, ps ++ [pw], n⟩ pw =
      ⟨eraseKeys cs pw.cells_added, ps, n⟩ := by
  unfold Grid.remove_word
  simp [removeFirstPid]

/-- Undo of a successful placement restores the occupied cells and the
placement sequence exactly (only the identity counter has advanced). -/
theorem place_then_remove {g : Grid} {w : List Char} {row col : Int}
    {d : Direction} {t : Trie} {g' : Grid} {pw : PlacedWord}
    (h : g.place_word w row col d t = (g', some pw)) :
    g'.remove_word pw = ⟨g.cells, g.placed_words, g.nextId + 1⟩ := by
  obtain ⟨es, hpw, hc, hp, hn, hfresh, _, _, _, _, _, _, _⟩ := place_word_some h
  have hg' : g' = ⟨g.cells ++ es, g.placed_words ++ [pw], g.nextId + 1⟩ := by
    cases g'
    simp_all
  rw [hg', remove_word_append_last]
  have : pw.cells_added = es.map Prod.fst := by rw [hpw]
  rw [this, rollback_append hfresh]

end Peeler

namespace Peeler

/-! ### C2 — rejection leaves the board untouched -/

/-- C2: if `place_word` rejects the placement (returns no record), the grid's
occupied-cell map and placement-record sequence after the call are exactly
equal to their values before the call: every partial write made during
validation is rolled back before returning. -/
theorem claim_C2_rejection_rollback (g : Grid) (w : List Char) (row col : Int)
    (d : Direction) (t : Trie)
    (h : (g.place_word w row col d t).2 = none) :
    (g.place_word w row col d t).1.cells = g.cells ∧
    (g.place_word w row col d t).1.placed_words = g.placed_words := by
  rcases hq : g.place_word w row col d t with ⟨g', r⟩
  rw [hq] at h
  simp only at h
  subst h
  rw [place_word_none hq]
  exact ⟨rfl, rfl⟩

/-- Witness for C2: placing AD at (0, 1) across on a grid already holding AD
at the origin is rejected (the cell before the word is occupied) and the
grid is unchanged. -/
theorem claim_C2_witness :
    (exGridAD.place_word ['A', 'D'] 0 1 .across exTrieAD).1.cells =
      exGridAD.cells ∧
    (exGridAD.place_word ['A', 'D'] 0 1 .across exTrieAD).1.placed_words =
      exGridAD.placed_words :=
  claim_C2_rejection_rollback exGridAD ['A', 'D'] 0 1 .across exTrieAD
    (by decide)

/-! ### C3 — undo correctness and identity-based removal -/

/-- The letter loop accepts a path whose cells all hold matching letters,
adding nothing and counting every position as an intersection. -/
theorem placeLoop_all_match (ps : List ((Int × Int) × Char)) :
    ∀ (cells : Cells) (adds0 : List (Int × Int)) (inters0 : Nat),
      (∀ pc ∈ ps, lookupCell cells pc.1 = some pc.2) →
      placeLoop cells ps adds0 inters0 =
        (cells, adds0, inters0 + ps.length, true) := by
  induction ps with
  | nil =>
    intro cells adds0 inters0 _
    simp [placeLoop]
  | cons pc rest ih =>
    intro cells adds0 inters0 hall
    obtain ⟨p, ch⟩ := pc
    have hl := hall (p, ch) (List.mem_cons_self _ _)
    simp only at hl
    have hstep : placeLoop cells ((p, ch) :: rest) adds0 inters0 =
        placeLoop cells rest adds0 (inters0 + 1) := by
      simp [placeLoop, hl]
    rw [hstep, ih cells adds0 (inters0 + 1)
      (fun pc' h' => hall pc' (List.mem_cons_of_mem _ h'))]
    have : inters0 + 1 + rest.length = inters0 + (rest.length + 1) := by omega
    rw [this]
    rfl

/-- C3: (1) undo correctness — after a successful `place_word` returning
record `r`, `remove_word r` restores the occupied-cell map and the
placement-record sequence to exactly their pre-placement values; (2)
identity-based removal — when a second, structurally identical record (same
word, anchor, axis) exists, removing the second instance by identity removes
exactly that instance, leaving the other record and all cells intact. -/
theorem claim_C3_undo_and_identity :
    (∀ (g : Grid) (w : List Char) (row col : Int) (d : Direction) (t : Trie)
      (g' : Grid) (pw : PlacedWord),
      g.place_word w row col d t = (g', some pw) →
      (g'.remove_word pw).cells = g.cells ∧
      (g'.remove_word pw).placed_words = g.placed_words) ∧
    (∀ (g : Grid) (w : List Char) (row col : Int) (d : Direction) (t : Trie)
      (g1 g2 : Grid) (pw1 pw2 : PlacedWord),
      g.place_word w row col d t = (g1, some pw1) →
      g1.place_word w row col d t = (g2, some pw2) →
      snapKey pw2 = snapKey pw1 ∧ pw2.pid ≠ pw1.pid ∧
      (g2.remove_word pw2).placed_words = g.placed_words ++ [pw1] ∧
      (g2.remove_word pw2).cells = g2.cells) := by
  constructor
  · intro g w row col d t g' pw h
    rw [place_then_remove h]
    exact ⟨rfl, rfl⟩
  · intro g w row col d t g1 g2 pw1 pw2 h1 h2
    obtain ⟨es1, hpw1, hc1, hp1, hn1, _, _, _, hlk1, _, _, _, _⟩ :=
      place_word_some h1
    obtain ⟨es2, hpw2, hc2, hp2, hn2, hfresh2, _, hmem2, _, _, _, _⟩ :=
      place_word_some h2
    have hes2 : es2 = [] := by
      rcases hcase : es2 with _ | ⟨e, es'⟩
      · rfl
      · exfalso
        rw [hcase] at hfresh2 hmem2
        have he := hfresh2 e (List.mem_cons_self _ _)
        have hinzip := hmem2 e (List.mem_cons_self _ _)
        have hlk := hlk1 e hinzip
        have : memCell g1.cells e.1 = true := by
          unfold memCell
          rw [hlk]
          rfl
        rw [he] at this
        cases this
    have hpwform : pw2 = ⟨w, row, col, d, [], g1.nextId⟩ := by
      rw [hpw2, hes2]
      rfl
    refine ⟨?_, ?_, ?_, ?_⟩
    · rw [hpwform, hpw1]
      rfl
    · rw [hpwform, hpw1, hn1]
      simp
    · have hform : g2 = ⟨g2.cells, (g.placed_words ++ [pw1]) ++ [pw2],
          g2.nextId⟩ := by
        cases g2
        simp only at hc2 hp2 ⊢
        rw [hp2, hp1]
      rw [hform, remove_word_append_last]
    · have hform : g2 = ⟨g2.cells, (g.placed_words ++ [pw1]) ++ [pw2],
          g2.nextId⟩ := by
        cases g2
        simp only at hc2 hp2 ⊢
        rw [hp2, hp1]
      conv_lhs => rw [hform]
      rw [remove_word_append_last]
      have : pw2.cells_added = [] := by rw [hpwform]
      rw [this]
      rfl

/-- Witness for C3 at a concrete double placement of AD. -/
theorem claim_C3_witness :
    ((exGridAD.remove_word exPW1).cells = emptyGrid.cells ∧
     (exGridAD.remove_word exPW1).placed_words = emptyGrid.placed_words) ∧
    (snapKey exPW2 = snapKey exPW1 ∧ exPW2.pid ≠ exPW1.pid ∧
     (exGridAD2.remove_word exPW2).placed_words =
       emptyGrid.placed_words ++ [exPW1] ∧
     (exGridAD2.remove_word exPW2).cells = exGridAD2.cells) :=
  ⟨claim_C3_undo_and_identity.1 emptyGrid ['A', 'D'] 0 0 .across exTrieAD
      exGridAD exPW1 (by decide),
   claim_C3_undo_and_identity.2 emptyGrid ['A', 'D'] 0 0 .across exTrieAD
      exGridAD exGridAD2 exPW1 exPW2 (by decide) (by decide)⟩

/-! ### C10 — zero-cell placements succeed and stack duplicate records -/

/-- C10: on a non-empty grid, placing a word whose entire path already holds
the matching letters (with free cells before and after it along its axis)
succeeds, returns a record whose newly-added cell list is empty, and appends
that record to the placement sequence while leaving the occupied-cell map and
`letter_count` unchanged — so structurally duplicate placement records can
accumulate without any letters being added. -/
theorem claim_C10_zero_cell_placement (g : Grid) (w : List Char)
    (row col : Int) (d : Direction) (t : Trie)
    (hw : w ≠ [])
    (hne : g.cells ≠ [])
    (hall : ∀ pc ∈ (wordPositions w row col d).zip w,
      lookupCell g.cells pc.1 = some pc.2)
    (hb : memCell g.cells (row - d.val.1, col - d.val.2) = false)
    (ha : memCell g.cells (row + (w.length : Int) * d.val.1,
      col + (w.length : Int) * d.val.2) = false) :
    ∃ pw : PlacedWord,
      g.place_word w row col d t =
        (⟨g.cells, g.placed_words ++ [pw], g.nextId + 1⟩, some pw) ∧
      pw.cells_added = [] ∧
      (⟨g.cells, g.placed_words ++ [pw], g.nextId + 1⟩ : Grid).letter_count =
        g.letter_count := by
  refine ⟨⟨w, row, col, d, [], g.nextId⟩, ?_, rfl, rfl⟩
  unfold Grid.place_word
  rw [if_neg (by rw [hb, ha]; simp)]
  rw [placeLoop_all_match _ g.cells [] 0 hall]
  dsimp only
  have hzip : ((wordPositions w row col d).zip w).length = w.length := by
    simp [wordPositions]
  rw [if_neg (by simp)]
  rw [if_neg ?_]
  · rfl
  · intro hcon
    have := hcon.2
    rw [hzip] at this
    simp at this
    exact hw this

/-- Witness for C10: re-placing AD over itself. -/
theorem claim_C10_witness :
    ∃ pw : PlacedWord,
      exGridAD.place_word ['A', 'D'] 0 0 .across exTrieAD =
        (⟨exGridAD.cells, exGridAD.placed_words ++ [pw],
          exGridAD.nextId + 1⟩, some pw) ∧
      pw.cells_added = [] ∧
      (⟨exGridAD.cells, exGridAD.placed_words ++ [pw],
        exGridAD.nextId + 1⟩ : Grid).letter_count = exGridAD.letter_count :=
  claim_C10_zero_cell_placement exGridAD ['A', 'D'] 0 0 .across exTrieAD
    (by decide) (by decide) (by decide) (by decide) (by decide)

end Peeler

namespace Peeler

/-! ### C9 — snapshots -/

/-- The seen-set fold of `_snapshot_grid` computes exactly the spec's
first-occurrence deduplication of the records not yet seen. -/
theorem dedupPW_eq_specDedup (l : List PlacedWord) :
    ∀ seen : List (List Char × Int × Int × Direction),
      dedupPW seen l =
        specDedup (l.filter (fun pw => decide (snapKey pw ∉ seen))) := by
  induction l with
  | nil =>
    intro seen
    simp [dedupPW, specDedup]
  | cons pw rest ih =>
    intro seen
    by_cases hk : snapKey pw ∈ seen
    · have h1 : dedupPW seen (pw :: rest) = dedupPW seen rest := by
        simp [dedupPW, hk]
      have h2 : (pw :: rest).filter (fun q => decide (snapKey q ∉ seen)) =
          rest.filter (fun q => decide (snapKey q ∉ seen)) := by
        simp [List.filter_cons, hk]
      rw [h1, h2, ih seen]
    · have h1 : dedupPW seen (pw :: rest) =
          pw :: dedupPW (seen ++ [snapKey pw]) rest := by
        simp [dedupPW, hk]
      have h2 : (pw :: rest).filter (fun q => decide (snapKey q ∉ seen)) =
          pw :: rest.filter (fun q => decide (snapKey q ∉ seen)) := by
        simp [List.filter_cons, hk]
      rw [h1, h2, ih (seen ++ [snapKey pw])]
      simp only [specDedup]
      have h3 : rest.filter (fun q => decide (snapKey q ∉ seen ++ [snapKey pw])) =
          (rest.filter (fun q => decide (snapKey q ∉ seen))).filter
            (fun q => decide (snapKey q ≠ snapKey pw)) := by
        rw [List.filter_filter]
        apply List.filter_congr
        intro q _
        by_cases hq1 : snapKey q ∈ seen <;> by_cases hq2 : snapKey q = snapKey pw <;>
          simp [hq1, hq2]
      rw [h3]

/-- Every record in the fold's output is a record of the input list. -/
theorem mem_of_mem_dedupPW (l : List PlacedWord) :
    ∀ (seen : List (List Char × Int × Int × Direction)) (pw : PlacedWord),
      pw ∈ dedupPW seen l → pw ∈ l := by
  induction l with
  | nil =>
    intro seen pw h
    simp [dedupPW] at h
  | cons q rest ih =>
    intro seen pw h
    by_cases hk : snapKey q ∈ seen
    · rw [show dedupPW seen (q :: rest) = dedupPW seen rest from by
        simp [dedupPW, hk]] at h
      exact List.mem_cons_of_mem _ (ih seen pw h)
    · rw [show dedupPW seen (q :: rest) =
          q :: dedupPW (seen ++ [snapKey q]) rest from by simp [dedupPW, hk]] at h
      rcases List.mem_cons.mp h with rfl | h'
      · exact List.mem_cons_self _ _
      · exact List.mem_cons_of_mem _ (ih _ pw h')

/-- C9 (amended): a snapshot's cell map equals the source's (a fresh `dict`
with the same entries), and its record list is the source's sequence with
structurally identical records (same word, anchor, axis) collapsed to the
first occurrence, in first-occurrence order — but the surviving placement
records are the source's own record objects (shared, not deep-copied). -/
theorem claim_C9_snapshot (g : Grid) :
    (snapshotGrid g).cells = g.cells ∧
    (snapshotGrid g).placed_words = specDedup g.placed_words ∧
    ∀ pw ∈ (snapshotGrid g).placed_words, pw ∈ g.placed_words := by
  refine ⟨rfl, ?_, ?_⟩
  · show dedupPW [] g.placed_words = _
    rw [dedupPW_eq_specDedup]
    congr 1
    simp
  · intro pw hpw
    exact mem_of_mem_dedupPW g.placed_words [] pw hpw

/-- Counterexample to C9 as stated: the snapshot shares mutable storage with
the source board.  The record held by the snapshot of `exGridAD` is the very
`PlacedWord` object (same identity token `pid`) held by the source — Python's
`_snapshot_grid` copies neither the record objects nor their `cells_added`
lists, so mutating a record through either board is visible through the
other. -/
theorem claim_C9_counterexample :
    (snapshotGrid exGridAD).placed_words.head? = some exPW1 ∧
    exGridAD.placed_words.head? = some exPW1 ∧
    exPW1.pid = 0 := by decide

end Peeler

namespace Peeler

/-! ### C5 — quick attach accepts a cell that does not hold the new letter -/

/-- C5 (code bug), evaluated at the failing input.  The board holds AD across
the origin, the newly drawn letter is A, and the full hand is A, D, A (the
dictionary contains only AD).  `incremental_solve` reports success via
"quick_attach", but the accepted placement is AD downward through the
existing A: the single newly occupied cell (1, 0) holds the letter D drawn
from the hand, not the new letter A, which stays unplaced.  `_quick_attach`'s
docstring promises the one new cell is "the new letter's cell"; the code only
checks `len(placed.cells_added) == 1`. -/
theorem claim_C5_quick_attach_wrong_letter :
    (incremental_solve exGridAD 'A' ['A', 'D', 'A'] exTrieAD oracleNever 10).2 =
      "quick_attach" ∧
    (incremental_solve exGridAD 'A' ['A', 'D', 'A'] exTrieAD
        oracleNever 10).1.cells = exGridAD.cells ++ [((1, 0), 'D')] ∧
    lookupCell (incremental_solve exGridAD 'A' ['A', 'D', 'A'] exTrieAD
        oracleNever 10).1.cells (1, 0) = some 'D' ∧
    ('D' : Char) ≠ 'A' := by decide

/-! ### C8 — the time budget is not re-checked on every recursive call -/

/-- C8 (code bug), evaluated at a failing input: with every `time.time()`
comparison of the entire run reporting the deadline as already exceeded
(`oracleAlways`), `solve` still places both letters and returns a complete
grid.  The `_backtrack` invocation entered after expiry succeeded instead of
failing its branch: its deadline test is gated behind
`iterations % 500 == 0` (and `% 1000` inside the candidate loop), so on the
first 499 calls it never runs. -/
theorem claim_C8_deadline_check_gated :
    (solve ['A', 'D'] exTrieAD oracleAlways).isSome = true ∧
    ((solve ['A', 'D'] exTrieAD oracleAlways).getD emptyGrid).letter_count = 2 ∧
    ((solve ['A', 'D'] exTrieAD oracleAlways).getD emptyGrid).cells =
      [((0, 0), 'A'), ((0, 1), 'D')] := by decide

/-! ### C6 — a failed incremental solve and the state it hands back -/

/-- A probe (speculative place + undo) preserves cell map and record list. -/
theorem probePlacement_obs {g : Grid} {word : List Char} {sr sc : Int}
    {d : Direction} {t : Trie} {g1 : Grid} {r : Option (Int × Int × Direction)}
    (h : probePlacement g word sr sc d t = (g1, r)) :
    g1.cells = g.cells ∧ g1.placed_words = g.placed_words := by
  unfold probePlacement at h
  rcases hq : g.place_word word sr sc d t with ⟨g', ro⟩
  rw [hq] at h
  cases ro with
  | none =>
    dsimp only at h
    obtain ⟨h1, _⟩ := Prod.mk.injEq .. ▸ h
    rw [← h1, place_word_none hq]
    exact ⟨rfl, rfl⟩
  | some pw =>
    dsimp only at h
    obtain ⟨h1, _⟩ := Prod.mk.injEq .. ▸ h
    rw [← h1, place_then_remove hq]
    exact ⟨rfl, rfl⟩

/-- The direction loop of `get_valid_placements` preserves the board. -/
theorem gvpDirs_obs (ds : List Direction) :
    ∀ (g : Grid) (word : List Char) (er ec : Int) (i : Nat) (t : Trie)
      (g2 : Grid) (rs : List (Int × Int × Direction)),
      gvpDirs ds g word er ec i t = (g2, rs) →
      g2.cells = g.cells ∧ g2.placed_words = g.placed_words := by
  induction ds with
  | nil =>
    intro g word er ec i t g2 rs h
    obtain ⟨h1, _⟩ := Prod.mk.injEq .. ▸ h
    rw [← h1]
    exact ⟨rfl, rfl⟩
  | cons d ds ih =>
    intro g word er ec i t g2 rs h
    unfold gvpDirs at h
    dsimp only at h
    rcases hp : probePlacement g word (er - (i : Int) * d.val.1)
        (ec - (i : Int) * d.val.2) d t with ⟨g1, r⟩
    rw [hp] at h
    dsimp only at h
    rcases hq : gvpDirs ds g1 word er ec i t with ⟨g2', rest⟩
    rw [hq] at h
    dsimp only at h
    obtain ⟨h1, _⟩ := Prod.mk.injEq .. ▸ h
    obtain ⟨hc1, hp1⟩ := probePlacement_obs hp
    obtain ⟨hc2, hp2⟩ := ih g1 word er ec i t g2' rest hq
    rw [← h1]
    exact ⟨hc2.trans hc1, hp2.trans hp1⟩

/-- The word-letter loop of `get_valid_placements` preserves the board. -/
theorem gvpLetters_obs (ps : List (Nat × Char)) :
    ∀ (g : Grid) (word : List Char) (er ec : Int) (letter : Char) (t : Trie)
      (g2 : Grid) (rs : List (Int × Int × Direction)),
      gvpLetters ps g word er ec letter t = (g2, rs) →
      g2.cells = g.cells ∧ g2.placed_words = g.placed_words := by
  induction ps with
  | nil =>
    intro g word er ec letter t g2 rs h
    obtain ⟨h1, _⟩ := Prod.mk.injEq .. ▸ h
    rw [← h1]
    exact ⟨rfl, rfl⟩
  | cons p rest ih =>
    intro g word er ec letter t g2 rs h
    obtain ⟨i, ch⟩ := p
    unfold gvpLetters at h
    by_cases hc : ch = letter
    · rw [if_pos hc] at h
      rcases hd : gvpDirs [Direction.across, Direction.down] g word er ec i t
        with ⟨g1, ps1⟩
      rw [hd] at h
      dsimp only at h
      rcases hq : gvpLetters rest g1 word er ec letter t with ⟨g2', ps2⟩
      rw [hq] at h
      dsimp only at h
      obtain ⟨h1, _⟩ := Prod.mk.injEq .. ▸ h
      obtain ⟨hc1, hp1⟩ := gvpDirs_obs _ g word er ec i t g1 ps1 hd
      obtain ⟨hc2, hp2⟩ := ih g1 word er ec letter t g2' ps2 hq
      rw [← h1]
      exact ⟨hc2.trans hc1, hp2.trans hp1⟩
    · rw [if_neg hc] at h
      exact ih g word er ec letter t g2 rs h

/-- The cells loop of `get_valid_placements` preserves the board. -/
theorem gvpCells_obs (items : List ((Int × Int) × Char)) :
    ∀ (g : Grid) (word : List Char) (t : Trie) (g2 : Grid)
      (rs : List (Int × Int × Direction)),
      gvpCells items g word t = (g2, rs) →
      g2.cells = g.cells ∧ g2.placed_words = g.placed_words := by
  induction items with
  | nil =>
    intro g word t g2 rs h
    obtain ⟨h1, _⟩ := Prod.mk.injEq .. ▸ h
    rw [← h1]
    exact ⟨rfl, rfl⟩
  | cons e rest ih =>
    intro g word t g2 rs h
    obtain ⟨p, letter⟩ := e
    unfold gvpCells at h
    rcases hl : gvpLetters word.enum g word p.1 p.2 letter t with ⟨g1, ps1⟩
    rw [hl] at h
    dsimp only at h
    rcases hq : gvpCells rest g1 word t with ⟨g2', ps2⟩
    rw [hq] at h
    dsimp only at h
    obtain ⟨h1, _⟩ := Prod.mk.injEq .. ▸ h
    obtain ⟨hc1, hp1⟩ := gvpLetters_obs _ g word p.1 p.2 letter t g1 ps1 hl
    obtain ⟨hc2, hp2⟩ := ih g1 word t g2' ps2 hq
    rw [← h1]
    exact ⟨hc2.trans hc1, hp2.trans hp1⟩

/-- `get_valid_placements` is a pure query: the search probes leak neither
cells nor placement records into the board observed by the caller. -/
theorem get_valid_placements_obs {g : Grid} {word : List Char} {t : Trie}
    {g2 : Grid} {rs : List (Int × Int × Direction)}
    (h : g.get_valid_placements word t = (g2, rs)) :
    g2.cells = g.cells ∧ g2.placed_words = g.placed_words := by
  unfold Grid.get_valid_placements at h
  by_cases he : g.isEmptyG = true
  · rw [if_pos he] at h
    obtain ⟨h1, _⟩ := Prod.mk.injEq .. ▸ h
    rw [← h1]
    exact ⟨rfl, rfl⟩
  · rw [if_neg he] at h
    exact gvpCells_obs g.cells g word t g2 rs h

/-- A failed placements loop of `_quick_attach` restores the board. -/
theorem qaTry_obs (t : Trie) (word : List Char) :
    ∀ (pls : List (Int × Int × Direction)) (g g2 : Grid),
      qaTry t word pls g = (g2, false) →
      g2.cells = g.cells ∧ g2.placed_words = g.placed_words := by
  intro pls
  induction pls with
  | nil =>
    intro g g2 h
    obtain ⟨h1, _⟩ := Prod.mk.injEq .. ▸ h
    rw [← h1]
    exact ⟨rfl, rfl⟩
  | cons pl pls ih =>
    intro g g2 h
    rcases pl with ⟨row, col, d⟩
    unfold qaTry at h
    rcases hq : g.place_word word row col d t with ⟨g', r⟩
    rw [hq] at h
    cases r with
    | none =>
      rw [place_word_none hq] at h
      exact ih g g2 h
    | some pw =>
      simp only at h
      by_cases hlen : pw.cells_added.length = 1
      · rw [if_pos hlen] at h
        exact absurd (Prod.mk.injEq .. ▸ h).2 (by simp)
      · rw [if_neg hlen] at h
        have hrem := place_then_remove hq
        rw [hrem] at h
        obtain ⟨hc, hp⟩ := ih _ g2 h
        exact ⟨hc, hp⟩

/-- A failed candidate loop of `_quick_attach` restores the board. -/
theorem qaWords_obs (t : Trie) (oracle : Nat → Bool) :
    ∀ (ws : List (List Char)) (g g2 : Grid) (k k2 : Nat),
      qaWords t oracle ws g k = (g2, false, k2) →
      g2.cells = g.cells ∧ g2.placed_words = g.placed_words := by
  intro ws
  induction ws with
  | nil =>
    intro g g2 k k2 h
    obtain ⟨h1, _⟩ := Prod.mk.injEq .. ▸ h
    rw [← h1]
    exact ⟨rfl, rfl⟩
  | cons w rest ih =>
    intro g g2 k k2 h
    unfold qaWords at h
    by_cases ho : oracle k = true
    · rw [if_pos ho] at h
      obtain ⟨h1, _⟩ := Prod.mk.injEq .. ▸ h
      rw [← h1]
      exact ⟨rfl, rfl⟩
    · rw [if_neg ho] at h
      rcases hg : g.get_valid_placements w t with ⟨g1, placements⟩
      rw [hg] at h
      have hob := get_valid_placements_obs hg
      simp only at h
      rcases hq : qaTry t w placements g1 with ⟨gq, found⟩
      rw [hq] at h
      cases found with
      | true => exact absurd ((Prod.mk.injEq .. ▸ h).2) (by simp)
      | false =>
        have hqa := qaTry_obs t w placements g1 gq hq
        obtain ⟨hc, hp⟩ := ih gq g2 (k + 1) k2 h
        exact ⟨hc.trans (hqa.1.trans hob.1), hp.trans (hqa.2.trans hob.2)⟩

/-- A failed `_quick_attach` call restores the board. -/
theorem quickAttach_obs (g : Grid) (newLetter : Char) (allLetters : List Char)
    (t : Trie) (oracle : Nat → Bool) (k : Nat) (g2 : Grid) (k2 : Nat)
    (h : quickAttach g newLetter allLetters t oracle k = (g2, false, k2)) :
    g2.cells = g.cells ∧ g2.placed_words = g.placed_words := by
  unfold quickAttach at h
  exact qaWords_obs t oracle _ g g2 k k2 h

/-- The fold output of the snapshot dedup has pairwise-distinct keys, none of
them in the seen set. -/
theorem dedupPW_keys (l : List PlacedWord) :
    ∀ seen, ((dedupPW seen l).map snapKey).Nodup ∧
      ∀ pw ∈ dedupPW seen l, snapKey pw ∉ seen := by
  induction l with
  | nil =>
    intro seen
    simp [dedupPW]
  | cons pw rest ih =>
    intro seen
    by_cases hk : snapKey pw ∈ seen
    · rw [show dedupPW seen (pw :: rest) = dedupPW seen rest from by
        simp [dedupPW, hk]]
      exact ih seen
    · rw [show dedupPW seen (pw :: rest) =
          pw :: dedupPW (seen ++ [snapKey pw]) rest from by simp [dedupPW, hk]]
      obtain ⟨hnd, hseen⟩ := ih (seen ++ [snapKey pw])
      refine ⟨?_, ?_⟩
      · refine List.nodup_cons.mpr ⟨?_, hnd⟩
        intro hmem
        rcases List.mem_map.mp hmem with ⟨q, hq, hkey⟩
        have := hseen q hq
        rw [hkey] at this
        simp at this
      · intro q hq
        rcases List.mem_cons.mp hq with rfl | hq'
        · exact hk
        · intro hcon
          exact hseen q hq' (by simp [hcon])

/-- When the records already have pairwise-distinct keys (and none is in the
seen set), the dedup fold is the identity. -/
theorem dedupPW_of_nodup (l : List PlacedWord) :
    ∀ seen, ((l.map snapKey).Nodup) → (∀ pw ∈ l, snapKey pw ∉ seen) →
      dedupPW seen l = l := by
  induction l with
  | nil =>
    intro seen _ _
    rfl
  | cons pw rest ih =>
    intro seen hnd hseen
    have hk : snapKey pw ∉ seen := hseen pw (List.mem_cons_self _ _)
    rw [show dedupPW seen (pw :: rest) =
        pw :: dedupPW (seen ++ [snapKey pw]) rest from by simp [dedupPW, hk]]
    congr 1
    apply ih (seen ++ [snapKey pw]) (List.nodup_cons.mp hnd).2
    intro q hq
    intro hcon
    rcases List.mem_append.mp hcon with h1 | h2
    · exact hseen q (List.mem_cons_of_mem _ hq) h1
    · have : snapKey q = snapKey pw := by simpa using h2
      exact (List.nodup_cons.mp hnd).1 (this ▸ List.mem_map_of_mem snapKey hq)

/-- A failed restructure loop hands back the entry cells, and either the
entry record list or its deduplication (the restore path assigns the
deduplicating snapshot's list). -/
theorem restructureLoop_obs (t : Trie) (newLetter : Char)
    (oracle : Nat → Bool) (fuel : Nat) :
    ∀ (ns : List Nat) (g g2 : Grid) (k k2 : Nat),
      restructureLoop t newLetter oracle fuel ns g k = (g2, false, k2) →
      g2.cells = g.cells ∧
      (g2.placed_words = g.placed_words ∨
        g2.placed_words = dedupPW [] g.placed_words) := by
  intro ns
  induction ns with
  | nil =>
    intro g g2 k k2 h
    obtain ⟨h1, _⟩ := Prod.mk.injEq .. ▸ h
    rw [← h1]
    exact ⟨rfl, Or.inl rfl⟩
  | cons n ns ih =>
    intro g g2 k k2 h
    unfold restructureLoop at h
    by_cases ho : oracle k = true
    · rw [if_pos ho] at h
      obtain ⟨h1, _⟩ := Prod.mk.injEq .. ▸ h
      rw [← h1]
      exact ⟨rfl, Or.inl rfl⟩
    · rw [if_neg ho] at h
      dsimp only at h
      rcases hf : freeWords g (g.placed_words.drop
          (g.placed_words.length - n)).reverse [] with ⟨g1, freedScan⟩
      rw [hf] at h
      dsimp only at h
      rcases hm : miniBacktrack g1 (freedScan ++ [newLetter]) t oracle fuel
          (k + 1) with ⟨gm, found, km⟩
      rw [hm] at h
      cases found with
      | true => simp at h
      | false =>
        dsimp only at h
        obtain ⟨hc, hp⟩ := ih _ g2 km k2 h
        constructor
        · exact hc
        · have hid : dedupPW [] (dedupPW [] g.placed_words) =
              dedupPW [] g.placed_words :=
            dedupPW_of_nodup _ [] (dedupPW_keys g.placed_words []).1 (by simp)
        
          rcases hp with h1 | h1
          · exact Or.inr h1
          · exact Or.inr (h1.trans hid)

/-- A failed `_partial_restructure` call: same cells, records possibly
deduplicated. -/
theorem restructure_obs (g : Grid) (newLetter : Char) (t : Trie)
    (oracle : Nat → Bool) (fuel : Nat) (k : Nat) (g2 : Grid) (k2 : Nat)
    (h : restructure g newLetter t oracle fuel k = (g2, false, k2)) :
    g2.cells = g.cells ∧
    (g2.placed_words = g.placed_words ∨
      g2.placed_words = dedupPW [] g.placed_words) := by
  unfold restructure at h
  by_cases he : g.placed_words.isEmpty = true
  · rw [if_pos he] at h
    obtain ⟨h1, _⟩ := Prod.mk.injEq .. ▸ h
    rw [← h1]
    exact ⟨rfl, Or.inl rfl⟩
  · rw [if_neg he] at h
    exact restructureLoop_obs t newLetter oracle fuel _ g g2 k k2 h

/-- C6 (amended): when `incremental_solve` reports "failed" and the entry
grid carries no structurally-duplicate placement records, the board handed
back has exactly the entry occupied-cell map and placement-record sequence.
(Without the no-duplicates hypothesis the failing restructure pass restores
the deduplicated record list instead — see the counterexample.) -/
theorem claim_C6_failed_preserves_board (g : Grid) (newLetter : Char)
    (allLetters : List Char) (t : Trie) (oracle : Nat → Bool) (fuel : Nat)
    (hnd : (g.placed_words.map snapKey).Nodup)
    (hfail : (incremental_solve g newLetter allLetters t oracle fuel).2 =
      "failed") :
    (incremental_solve g newLetter allLetters t oracle fuel).1.cells =
      g.cells ∧
    (incremental_solve g newLetter allLetters t oracle fuel).1.placed_words =
      g.placed_words := by
  unfold incremental_solve at hfail ⊢
  dsimp only at hfail ⊢
  rcases hqa : quickAttach g newLetter allLetters t oracle 0 with ⟨g1, f1, k1⟩
  rw [hqa] at hfail
  cases f1 with
  | true => simp at hfail
  | false =>
    dsimp only at hfail ⊢
    have hob1 := quickAttach_obs g newLetter allLetters t oracle 0 g1 k1 hqa
    rcases hre : restructure g1 newLetter t oracle fuel k1 with ⟨g2, f2, k2⟩
    rw [hre] at hfail
    cases f2 with
    | true => simp at hfail
    | false =>
      dsimp only at hfail ⊢
      have hob2 := restructure_obs g1 newLetter t oracle fuel k1 g2 k2 hre
      have hg2p : g2.placed_words = g.placed_words := by
        rcases hob2.2 with h1 | h1
        · rw [h1, hob1.2]
        · rw [h1, hob1.2, dedupPW_of_nodup _ [] hnd (by simp)]
      have hg2c : g2.cells = g.cells := hob2.1.trans hob1.1
      by_cases hgate : (oracle k2 = true ∧
          3 ≤ (allLetters.length : Int) - (g2.letter_count : Int))
      · rw [if_pos hgate] at hfail ⊢
        rcases hs : solve allLetters t (fun i => oracle (k2 + 1 + i)) with _ | gn
        · rw [hs] at hfail
          dsimp only at hfail ⊢
          exact ⟨hg2c, hg2p⟩
        · rw [hs] at hfail
          simp at hfail
      · rw [if_neg hgate] at hfail ⊢
        exact ⟨hg2c, hg2p⟩

/-- Counterexample to C6 as stated: an entry grid with two structurally
identical AD records (the second a zero-cell placement).  All strategies
fail, `incremental_solve` reports "failed", the cells are unchanged — but
the board now carries only one record: the failing partial-restructure pass
restored `placed_words` from its deduplicating snapshot. -/
theorem claim_C6_counterexample :
    (incremental_solve exGridAD2 'Z' ['A', 'D', 'Z'] exTrieAD oracleNever
        10).2 = "failed" ∧
    exGridAD2.placed_words.length = 2 ∧
    (incremental_solve exGridAD2 'Z' ['A', 'D', 'Z'] exTrieAD oracleNever
        10).1.placed_words.length = 1 ∧
    (incremental_solve exGridAD2 'Z' ['A', 'D', 'Z'] exTrieAD oracleNever
        10).1.cells = exGridAD2.cells := by decide

/-- Witness for C6 at a duplicate-free entry grid. -/
theorem claim_C6_witness :
    (incremental_solve exGridAD 'Z' ['A', 'D', 'Z'] exTrieAD oracleNever
        10).1.cells = exGridAD.cells ∧
    (incremental_solve exGridAD 'Z' ['A', 'D', 'Z'] exTrieAD oracleNever
        10).1.placed_words = exGridAD.placed_words :=
  claim_C6_failed_preserves_board exGridAD 'Z' ['A', 'D', 'Z'] exTrieAD
    oracleNever 10 (by decide) (by decide)

end Peeler

namespace Peeler

/-! ### C7 — the success target always counts every letter of the hand -/

/-- If the placements loop of `_backtrack` reports success, the success came
from the recursive call. -/
theorem btPls_true_letter_count (t : Trie) (letters : List Char)
    (next : SearchState → SearchState × Bool)
    (hnext : ∀ s s', next s = (s', true) →
      s'.grid.letter_count = letters.length)
    (word : List Char) :
    ∀ (pls : List (Int × Int × Direction)) (st st' : SearchState),
      btPls t letters next word pls st = (st', true) →
      st'.grid.letter_count = letters.length := by
  intro pls
  induction pls with
  | nil =>
    intro st st' h
    unfold btPls at h
    exact absurd (Prod.mk.injEq .. ▸ h).2 (by simp)
  | cons pl pls ih =>
    intro st st' h
    rcases pl with ⟨row, col, d⟩
    unfold btPls at h
    rcases hp : st.grid.place_word word row col d t with ⟨g', r⟩
    rw [hp] at h
    cases r with
    | none =>
      dsimp only at h
      exact ih _ st' h
    | some pw =>
      dsimp only at h
      by_cases hneg : remainingNegative letters g' = true
      · rw [if_pos hneg] at h
        exact ih _ st' h
      · rw [if_neg hneg] at h
        rcases hn : next { st with grid := g' } with ⟨s1, f⟩
        rw [hn] at h
        cases f with
        | true =>
          dsimp only at h
          obtain ⟨h1, _⟩ := Prod.mk.injEq .. ▸ h
          rw [← h1]
          exact hnext _ _ hn
        | false =>
          dsimp only at h
          exact ih _ st' h

/-- If the candidate loop of `_backtrack` reports success, the success came
from the recursive call. -/
theorem btWords_true_letter_count (t : Trie) (letters : List Char)
    (oracle : Nat → Bool) (next : SearchState → SearchState × Bool)
    (hnext : ∀ s s', next s = (s', true) →
      s'.grid.letter_count = letters.length) :
    ∀ (ws : List (List Char)) (st st' : SearchState),
      btWords t letters oracle next ws st = (st', true) →
      st'.grid.letter_count = letters.length := by
  intro ws
  induction ws with
  | nil =>
    intro st st' h
    unfold btWords at h
    exact absurd (Prod.mk.injEq .. ▸ h).2 (by simp)
  | cons w rest ih =>
    intro st st' h
    unfold btWords at h
    rcases hg : st.grid.get_valid_placements w t with ⟨g1, pls⟩
    rw [hg] at h
    dsimp only at h
    rcases hbp : btPls t letters next w pls { st with grid := g1 } with ⟨st1, f⟩
    rw [hbp] at h
    cases f with
    | true =>
      dsimp only at h
      obtain ⟨h1, _⟩ := Prod.mk.injEq .. ▸ h
      rw [← h1]
      exact btPls_true_letter_count t letters next hnext w pls _ st1 hbp
    | false =>
      dsimp only at h
      rcases hco : checkOracle oracle st1.k (st1.iters % 1000 = 0)
        with ⟨elapsed, k1⟩
      rw [hco] at h
      dsimp only at h
      cases elapsed with
      | true =>
        rw [if_pos rfl] at h
        exact absurd (Prod.mk.injEq .. ▸ h).2 (by simp)
      | false =>
        rw [if_neg (by simp)] at h
        exact ih _ st' h

/-- `_backtrack` returns `True` only in a state where the number of letters
on the grid equals the number of letters of the whole hand — the success
target is `total_letters`, with no letter ever excluded from it. -/
theorem backtrack_true_letter_count (t : Trie) (letters : List Char)
    (oracle : Nat → Bool) :
    ∀ (fuel : Nat) (st st' : SearchState),
      backtrack t letters oracle fuel st = (st', true) →
      st'.grid.letter_count = letters.length := by
  intro fuel
  induction fuel with
  | zero =>
    intro st st' h
    unfold backtrack at h
    exact absurd (Prod.mk.injEq .. ▸ h).2 (by simp)
  | succ fuel ih =>
    intro st st' h
    unfold backtrack at h
    dsimp only at h
    rcases hco : checkOracle oracle st.k ((st.iters + 1) % 500 = 0)
      with ⟨elapsed, k1⟩
    rw [hco] at h
    dsimp only at h
    cases elapsed with
    | true =>
      rw [if_pos rfl] at h
      exact absurd (Prod.mk.injEq .. ▸ h).2 (by simp)
    | false =>
      rw [if_neg (by simp)] at h
      by_cases hpc : st.grid.letter_count = letters.length
      · rw [if_pos hpc] at h
        by_cases hbest : st.bestPlaced < st.grid.letter_count
        · rw [if_pos hbest] at h
          obtain ⟨h1, _⟩ := Prod.mk.injEq .. ▸ h
          rw [← h1]
          exact hpc
        · rw [if_neg hbest] at h
          obtain ⟨h1, _⟩ := Prod.mk.injEq .. ▸ h
          rw [← h1]
          exact hpc
      · rw [if_neg hpc] at h
        by_cases hbest : st.bestPlaced < st.grid.letter_count
        · rw [if_pos hbest] at h
          by_cases hrem : (posRemaining letters st.grid).isEmpty = true
          · rw [if_pos (by simpa using hrem)] at h
            exact absurd (Prod.mk.injEq .. ▸ h).2 (by simp)
          · rw [if_neg (by simpa using hrem)] at h
            exact btWords_true_letter_count t letters oracle _
              (fun s s' hb => ih s s' hb) _ _ st' h
        · rw [if_neg hbest] at h
          by_cases hrem : (posRemaining letters st.grid).isEmpty = true
          · rw [if_pos (by simpa using hrem)] at h
            exact absurd (Prod.mk.injEq .. ▸ h).2 (by simp)
          · rw [if_neg (by simpa using hrem)] at h
            exact btWords_true_letter_count t letters oracle _
              (fun s s' hb => ih s s' hb) _ _ st' h

/-- C7 (code bug): the claimed unplaceable-letter exclusion does not exist.
Part 1: `_backtrack` succeeds only when the grid holds as many letters as the
*entire* hand — the success target is never reduced by unplaceable letters
(the repo's own test docstring says "Now it detects unplaceable letters
upfront and excludes them from the target count"; no such code exists in
`solve`).  Part 2, at the claim's own example: for hand A, D, D, Q against a
dictionary ({DAD}) in which Q forms no word, `solve` does return a grid with
exactly 3 letters and Q unplaced — but it reaches that result through the
best-partial-snapshot fallback after exhausting its candidates, never by
concluding that all placeable letters are placed. -/
theorem claim_C7_no_unplaceable_exclusion :
    (∀ (t : Trie) (letters : List Char) (oracle : Nat → Bool) (fuel : Nat)
      (st st' : SearchState),
      backtrack t letters oracle fuel st = (st', true) →
      st'.grid.letter_count = letters.length) ∧
    ((solve ['A', 'D', 'D', 'Q'] exTrieDAD oracleNever).isSome = true ∧
     ((solve ['A', 'D', 'D', 'Q'] exTrieDAD oracleNever).getD
        emptyGrid).letter_count = 3 ∧
     'Q' ∉ ((solve ['A', 'D', 'D', 'Q'] exTrieDAD oracleNever).getD
        emptyGrid).cells.map Prod.snd) :=
  ⟨fun t letters oracle => backtrack_true_letter_count t letters oracle,
   by decide⟩

/-- Witness for C7's universal part at a completed concrete search. -/
theorem claim_C7_witness :
    (backtrack exTrieAD ['A', 'D'] oracleNever 201
      ⟨exGridAD, none, 0, 0, 0⟩).1.grid.letter_count =
      (['A', 'D'] : List Char).length :=
  claim_C7_no_unplaceable_exclusion.1 exTrieAD ['A', 'D'] oracleNever 201
    ⟨exGridAD, none, 0, 0, 0⟩
    (backtrack exTrieAD ['A', 'D'] oracleNever 201
      ⟨exGridAD, none, 0, 0, 0⟩).1
    (by decide)

end Peeler

namespace Peeler

/-! ### C4 — the trie and `find_words_from_letters` -/

/-- Updating a child map behaves as a pointwise store. -/
theorem lookupChild_updateChild (cs : List (Char × Trie)) (ch : Char)
    (x : Trie) (c : Char) :
    lookupChild (updateChild cs ch x) c =
      if c = ch then some x else lookupChild cs c := by
  by_cases hc : c = ch
  · subst hc
    rw [if_pos rfl]
    induction cs with
    | nil => simp [updateChild, lookupChild]
    | cons e rest ih =>
      obtain ⟨c', t'⟩ := e
      by_cases h1 : c' = c
      · subst h1
        simp [updateChild, lookupChild]
      · simp [updateChild, lookupChild, h1, ih]
  · rw [if_neg hc]
    induction cs with
    | nil =>
      have hcc : ¬ (ch = c) := fun h => hc h.symm
      simp [updateChild, lookupChild, hcc]
    | cons e rest ih =>
      obtain ⟨c', t'⟩ := e
      by_cases h1 : c' = ch
      · subst h1
        have hcc : ¬ (c' = c) := fun h => hc h.symm
        simp [updateChild, lookupChild, hcc]
      · by_cases h2 : c' = c
        · subst h2
          simp [updateChild, lookupChild, h1]
        · simp [updateChild, lookupChild, h1, h2, ih]

/-- A successful child lookup returns an entry of the map. -/
theorem lookupChild_mem (cs : List (Char × Trie)) (ch : Char) (c : Trie)
    (h : lookupChild cs ch = some c) : (ch, c) ∈ cs := by
  induction cs with
  | nil => simp [lookupChild] at h
  | cons e rest ih =>
    obtain ⟨c', t'⟩ := e
    by_cases h1 : c' = ch
    · subst h1
      simp [lookupChild] at h
      simp [h]
    · simp [lookupChild, h1] at h
      exact List.mem_cons_of_mem _ (ih h)

/-- With distinct keys, membership determines the lookup. -/
theorem lookupChild_of_mem (cs : List (Char × Trie))
    (hnd : (cs.map Prod.fst).Nodup) (ch : Char) (c : Trie)
    (h : (ch, c) ∈ cs) : lookupChild cs ch = some c := by
  induction cs with
  | nil => cases h
  | cons e rest ih =>
    obtain ⟨c', t'⟩ := e
    rcases List.mem_cons.mp h with he | hm
    · obtain ⟨h1, h2⟩ := Prod.mk.injEq .. ▸ he.symm
      simp [lookupChild, h1, h2]
    · have h1 : c' ≠ ch := by
        intro hx
        subst hx
        exact (List.nodup_cons.mp hnd).1
          (by simpa using List.mem_map_of_mem Prod.fst hm)
      simp [lookupChild, h1]
      exact ih (List.nodup_cons.mp hnd).2 hm

/-- The keys of an updated child map. -/
theorem updateChild_keys (cs : List (Char × Trie)) (ch : Char) (x : Trie) :
    (updateChild cs ch x).map Prod.fst =
      if ch ∈ cs.map Prod.fst then cs.map Prod.fst
      else cs.map Prod.fst ++ [ch] := by
  induction cs with
  | nil => simp [updateChild]
  | cons e rest ih =>
    obtain ⟨c', t'⟩ := e
    by_cases h1 : c' = ch
    · subst h1
      simp [updateChild]
    · have h2 : ¬ ch = c' := fun hx => h1 hx.symm
      by_cases h3 : ch ∈ rest.map Prod.fst <;>
        simp [updateChild, h1, h2, h3, ih]

/-- Entries of an updated child map: the new entry or an old one. -/
theorem updateChild_mem (cs : List (Char × Trie)) (ch : Char) (x : Trie)
    (p : Char × Trie) (h : p ∈ updateChild cs ch x) :
    p = (ch, x) ∨ p ∈ cs := by
  induction cs with
  | nil =>
    simp [updateChild] at h
    exact Or.inl h
  | cons e rest ih =>
    obtain ⟨c', t'⟩ := e
    by_cases h1 : c' = ch
    · subst h1
      simp only [updateChild, if_pos rfl] at h
      rcases List.mem_cons.mp h with he | hm
      · exact Or.inl he
      · exact Or.inr (List.mem_cons_of_mem _ hm)
    · simp only [updateChild, if_neg h1] at h
      rcases List.mem_cons.mp h with he | hm
      · exact Or.inr (he ▸ List.mem_cons_self _ _)
      · rcases ih hm with h' | h'
        · exact Or.inl h'
        · exact Or.inr (List.mem_cons_of_mem _ h')

/-- `TrieWF` survives `_insert`. -/
theorem TrieWF_insert (w : List Char) :
    ∀ t : Trie, TrieWF t → TrieWF (t.insert w) := by
  induction w with
  | nil =>
    intro t ht
    cases ht with
    | node b cs hnd hkids => exact TrieWF.node true cs hnd hkids
  | cons ch rest ih =>
    intro t ht
    cases ht with
    | node b cs hnd hkids =>
      have hchild : TrieWF ((lookupChild cs ch).getD Trie.empty) := by
        rcases hl : lookupChild cs ch with _ | c
        · exact TrieWF.node false [] (by simp) (by simp)
        · exact hkids (ch, c) (lookupChild_mem cs ch c hl)
      refine TrieWF.node b _ ?_ ?_
      · rw [updateChild_keys]
        by_cases hmem : ch ∈ cs.map Prod.fst
        · rw [if_pos hmem]
          exact hnd
        · rw [if_neg hmem]
          simp [List.nodup_append, hnd, hmem]
      · intro p hp
        rcases updateChild_mem cs ch _ p hp with h' | h'
        · rw [h']
          exact ih _ hchild
        · exact hkids p h'

/-- The empty trie accepts nothing. -/
theorem walkAccept_empty (v : List Char) :
    walkAccept Trie.empty v = false := by
  cases v with
  | nil => rfl
  | cons c vs => simp [walkAccept, Trie.empty, Trie.children, lookupChild]

/-- `_insert` adds exactly the inserted word to the accepted set. -/
theorem walkAccept_insert (w : List Char) :
    ∀ (t : Trie) (v : List Char),
      walkAccept (t.insert w) v = true ↔ (v = w ∨ walkAccept t v = true) := by
  induction w with
  | nil =>
    intro t v
    obtain ⟨b, cs⟩ := t
    cases v with
    | nil => simp [Trie.insert, walkAccept, Trie.isWordFlag]
    | cons c vs =>
      simp only [Trie.insert, walkAccept, Trie.children]
      constructor
      · intro h
        exact Or.inr h
      · intro h
        rcases h with h | h
        · cases h
        · exact h
  | cons ch rest ih =>
    intro t v
    obtain ⟨b, cs⟩ := t
    cases v with
    | nil =>
      simp only [Trie.insert, walkAccept, Trie.isWordFlag]
      constructor
      · intro h
        exact Or.inr h
      · intro h
        rcases h with h | h
        · cases h
        · exact h
    | cons c vs =>
      simp only [Trie.insert, walkAccept, Trie.children]
      rw [lookupChild_updateChild]
      by_cases hc : c = ch
      · subst hc
        rw [if_pos rfl]
        rw [ih ((lookupChild cs c).getD Trie.empty) vs]
        rcases hl : lookupChild cs c with _ | child
        · simp only [Option.getD_none]
          constructor
          · rintro (h | h)
            · exact Or.inl (by rw [h])
            · rw [walkAccept_empty vs] at h
              cases h
          · rintro (h | h)
            · obtain ⟨-, h2⟩ := List.cons.injEq .. ▸ h
              exact Or.inl h2
            · simp at h
        · simp only [Option.getD_some]
          constructor
          · rintro (h | h)
            · exact Or.inl (by rw [h])
            · exact Or.inr h
          · rintro (h | h)
            · obtain ⟨-, h2⟩ := List.cons.injEq .. ▸ h
              exact Or.inl h2
            · exact Or.inr h
      · rw [if_neg hc]
        constructor
        · intro h
          exact Or.inr h
        · rintro (h | h)
          · obtain ⟨h1, -⟩ := List.cons.injEq .. ▸ h
            exact absurd h1 hc
          · exact h

/-- Acceptance for a dictionary built from a word list. -/
theorem walkAccept_trieOfWords (ws : List (List Char)) (v : List Char) :
    walkAccept (trieOfWords ws) v = true ↔ v ∈ ws := by
  have hgen : ∀ (l : List (List Char)) (t : Trie),
      walkAccept (l.foldl Trie.insert t) v = true ↔
        (v ∈ l ∨ walkAccept t v = true) := by
    intro l
    induction l with
    | nil => simp
    | cons w l ihl =>
      intro t
      show walkAccept (l.foldl Trie.insert (t.insert w)) v = true ↔ _
      rw [ihl (t.insert w), walkAccept_insert]
      constructor
      · rintro (h | h | h)
        · exact Or.inl (List.mem_cons_of_mem _ h)
        · exact Or.inl (h ▸ List.mem_cons_self _ _)
        · exact Or.inr h
      · rintro (h | h)
        · rcases List.mem_cons.mp h with h' | h'
          · exact Or.inr (Or.inl h')
          · exact Or.inl h'
        · exact Or.inr (Or.inr h)
  rw [show trieOfWords ws = ws.foldl Trie.insert Trie.empty from rfl,
    hgen ws Trie.empty, walkAccept_empty]
  simp

/-- A dictionary built from a word list is well-formed. -/
theorem TrieWF_trieOfWords (ws : List (List Char)) :
    TrieWF (trieOfWords ws) := by
  have hgen : ∀ (l : List (List Char)) (t : Trie), TrieWF t →
      TrieWF (l.foldl Trie.insert t) := by
    intro l
    induction l with
    | nil => intro t ht; exact ht
    | cons w l ihl =>
      intro t ht
      exact ihl (t.insert w) (TrieWF_insert w t ht)
  exact hgen ws Trie.empty (TrieWF.node false [] (by simp) (by simp))

end Peeler

namespace Peeler

/-- Characterization of the DFS of `find_words_from_letters`: it emits
exactly the extensions of `path` that the trie accepts, fit inside the
remaining letter multiset, and respect the length window.  `fuel` must
exceed the number of remaining letters (each descent consumes one). -/
theorem wordsDFS_mem :
    ∀ (fuel : Nat) (node : Trie) (remaining path : List Char)
      (minLen maxLen : Nat) (w : List Char),
      TrieWF node → remaining.length < fuel →
      (w ∈ wordsDFS fuel node remaining path minLen maxLen ↔
        ∃ s : List Char, w = path ++ s ∧ walkAccept node s = true ∧
          (∀ ch, s.count ch ≤ remaining.count ch) ∧
          minLen ≤ path.length + s.length ∧
          (s = [] ∨ path.length + s.length ≤ maxLen)) := by
  intro fuel
  induction fuel with
  | zero =>
    intro node remaining path minLen maxLen w _ hlt
    omega
  | succ fuel ih =>
    intro node remaining path minLen maxLen w hwf hlt
    obtain ⟨b, cs⟩ := node
    have hnd : (cs.map Prod.fst).Nodup := by cases hwf with | node _ _ hnd _ => exact hnd
    have hkidsWF : ∀ p ∈ cs, TrieWF p.2 := by cases hwf with | node _ _ _ hk => exact hk
    simp only [wordsDFS, List.mem_append]
    constructor
    · rintro (hmem | hmem)
      · -- emitted at this node
        by_cases hcond : (Trie.node b cs).isWordFlag = true ∧ minLen ≤ path.length
        · rw [if_pos hcond] at hmem
          have hw : w = path := by simpa using hmem
          refine ⟨[], by simp [hw], ?_, by simp, by simpa using hcond.2, Or.inl rfl⟩
          simpa [walkAccept] using hcond.1
        · rw [if_neg hcond] at hmem
          simp at hmem
      · -- emitted below a child
        by_cases hmax : maxLen ≤ path.length
        · rw [if_pos hmax] at hmem
          simp at hmem
        · rw [if_neg hmax] at hmem
          rw [List.mem_flatten] at hmem
          obtain ⟨l, hl, hwl⟩ := hmem
          rw [List.mem_map] at hl
          obtain ⟨⟨ch, child⟩, hpr, rfl⟩ := hl
          by_cases hcount : 0 < remaining.count ch
          · rw [if_pos hcount] at hwl
            have hchmem : ch ∈ remaining := by
              by_contra hc
              simp [List.count_eq_zero_of_not_mem hc] at hcount
            have hfuel2 : (remaining.erase ch).length < fuel := by
              have h1 := List.length_erase_of_mem hchmem
              have h2 : 0 < remaining.length :=
                List.length_pos.mpr (List.ne_nil_of_mem hchmem)
              omega
            obtain ⟨s', hs1, hs2, hs3, hs4, hs5⟩ :=
              (ih child (remaining.erase ch) (path ++ [ch]) minLen maxLen w
                (hkidsWF (ch, child) hpr) hfuel2).mp hwl
            refine ⟨ch :: s', by simpa using hs1, ?_, ?_, ?_, ?_⟩
            · show walkAccept (Trie.node b cs) (ch :: s') = true
              simp only [walkAccept, Trie.children]
              rw [lookupChild_of_mem cs hnd ch child hpr]
              exact hs2
            · intro x
              by_cases hx : x = ch
              · subst hx
                have := hs3 x
                rw [List.count_erase_self] at this
                simp only [List.count_cons_self]
                omega
              · have := hs3 x
                rw [List.count_erase_of_ne hx] at this
                rw [List.count_cons_of_ne hx]
                exact this
            · simp only [List.length_cons]
              simp only [List.length_append, List.length_singleton] at hs4
              omega
            · refine Or.inr ?_
              simp only [List.length_cons]
              simp only [List.length_append, List.length_singleton] at hs5
              rcases hs5 with h | h
              · subst h
                simp only [List.length_nil]
                omega
              · omega
          · rw [if_neg hcount] at hwl
            simp at hwl
    · rintro ⟨s, rfl, hacc, hcount, hmin, hmax⟩
      cases s with
      | nil =>
        left
        have hb : b = true := by simpa [walkAccept, Trie.isWordFlag] using hacc
        rw [if_pos ⟨by simpa [Trie.isWordFlag] using hb, by simpa using hmin⟩]
        simp
      | cons ch s' =>
        right
        have hmax' : path.length + (ch :: s').length ≤ maxLen := by
          rcases hmax with h | h
          · cases h
          · exact h
        have hnotmax : ¬ maxLen ≤ path.length := by
          simp only [List.length_cons] at hmax'
          omega
        rw [if_neg hnotmax]
        rw [List.mem_flatten]
        simp only [walkAccept, Trie.children] at hacc
        rcases hl : lookupChild cs ch with _ | child
        · rw [hl] at hacc
          simp at hacc
        · rw [hl] at hacc
          have hpr : (ch, child) ∈ cs := lookupChild_mem cs ch child hl
          have hcount0 : 0 < remaining.count ch := by
            have := hcount ch
            simp only [List.count_cons_self] at this
            omega
          have hchmem : ch ∈ remaining := by
            by_contra hc
            simp [List.count_eq_zero_of_not_mem hc] at hcount0
          have hfuel2 : (remaining.erase ch).length < fuel := by
            have h1 := List.length_erase_of_mem hchmem
            have h2 : 0 < remaining.length :=
              List.length_pos.mpr (List.ne_nil_of_mem hchmem)
            omega
          refine ⟨wordsDFS fuel child (remaining.erase ch) (path ++ [ch])
            minLen maxLen, ?_, ?_⟩
          · rw [List.mem_map]
            exact ⟨(ch, child), hpr, by rw [if_pos hcount0]⟩
          · rw [ih child (remaining.erase ch) (path ++ [ch]) minLen maxLen _
              (hkidsWF (ch, child) hpr) hfuel2]
            refine ⟨s', by simp, hacc, ?_, ?_, ?_⟩
            · intro x
              by_cases hx : x = ch
              · subst hx
                have := hcount x
                rw [List.count_erase_self]
                simp only [List.count_cons_self] at this
                omega
              · have := hcount x
                rw [List.count_erase_of_ne hx]
                rw [List.count_cons_of_ne hx] at this
                exact this
            · simp only [List.length_append, List.length_singleton]
              simp only [List.length_cons] at hmin
              omega
            · refine Or.inr ?_
              simp only [List.length_append, List.length_singleton]
              simp only [List.length_cons] at hmax'
              omega

end Peeler

namespace Peeler

/-- Fuel bookkeeping for a DFS descent. -/
theorem erase_length_lt_fuel {remaining : List Char} {ch : Char} {fuel : Nat}
    (hcount : 0 < remaining.count ch) (hlt : remaining.length < fuel + 1) :
    (remaining.erase ch).length < fuel := by
  have hchmem : ch ∈ remaining := by
    by_contra hc
    simp [List.count_eq_zero_of_not_mem hc] at hcount
  have h1 := List.length_erase_of_mem hchmem
  have h2 : 0 < remaining.length :=
    List.length_pos.mpr (List.ne_nil_of_mem hchmem)
  omega

/-- The DFS emits each word at most once: distinct children yield words that
differ at the next letter, and the current path differs from every deeper
word by length. -/
theorem wordsDFS_nodup :
    ∀ (fuel : Nat) (node : Trie) (remaining path : List Char)
      (minLen maxLen : Nat),
      TrieWF node → remaining.length < fuel →
      (wordsDFS fuel node remaining path minLen maxLen).Nodup := by
  intro fuel
  induction fuel with
  | zero =>
    intro node remaining path minLen maxLen _ hlt
    omega
  | succ fuel ih =>
    intro node remaining path minLen maxLen hwf hlt
    obtain ⟨b, cs⟩ := node
    have hnd : (cs.map Prod.fst).Nodup := by
      cases hwf with | node _ _ hnd _ => exact hnd
    have hkidsWF : ∀ p ∈ cs, TrieWF p.2 := by
      cases hwf with | node _ _ _ hk => exact hk
    have hchunk : ∀ (ch : Char) (child : Trie), (ch, child) ∈ cs →
        ∀ w ∈ (if 0 < remaining.count ch then
          wordsDFS fuel child (remaining.erase ch) (path ++ [ch]) minLen maxLen
          else []), ∃ s, w = path ++ ch :: s := by
      intro ch child hpr w hw
      by_cases hcount : 0 < remaining.count ch
      · rw [if_pos hcount] at hw
        obtain ⟨s, hs, -⟩ := (wordsDFS_mem fuel child (remaining.erase ch)
          (path ++ [ch]) minLen maxLen w (hkidsWF _ hpr)
          (erase_length_lt_fuel hcount hlt)).mp hw
        exact ⟨s, by simpa using hs⟩
      · rw [if_neg hcount] at hw
        simp at hw
    simp only [wordsDFS]
    rw [List.nodup_append]
    refine ⟨?_, ?_, ?_⟩
    · split_ifs <;> simp
    · split_ifs with hmax
      · simp
      · rw [List.nodup_flatten]
        constructor
        · intro l hl
          rw [List.mem_map] at hl
          obtain ⟨⟨ch, child⟩, hpr, rfl⟩ := hl
          by_cases hcount : 0 < remaining.count ch
          · rw [if_pos hcount]
            exact ih child _ _ _ _ (hkidsWF _ hpr)
              (erase_length_lt_fuel hcount hlt)
          · rw [if_neg hcount]
            simp
        · rw [List.pairwise_map]
          have hpw : cs.Pairwise (fun a b => a.1 ≠ b.1) := by
            have h := hnd
            rw [List.Nodup, List.pairwise_map] at h
            exact h
          refine List.Pairwise.imp_of_mem ?_ hpw
          intro a b hma hmb hab
          intro w hwa hwb
          obtain ⟨s1, hs1⟩ := hchunk a.1 a.2 (by simpa using hma) w hwa
          obtain ⟨s2, hs2⟩ := hchunk b.1 b.2 (by simpa using hmb) w hwb
          rw [hs1] at hs2
          have := List.append_cancel_left hs2
          exact hab (List.head_eq_of_cons_eq this)
    · intro w hw hw'
      have hwp : w = path := by
        by_cases hcond : (Trie.node b cs).isWordFlag = true ∧
            minLen ≤ path.length
        · rw [if_pos hcond] at hw
          simpa using hw
        · rw [if_neg hcond] at hw
          simp at hw
      by_cases hmax : maxLen ≤ path.length
      · rw [if_pos hmax] at hw'
        simp at hw'
      · rw [if_neg hmax] at hw'
        rw [List.mem_flatten] at hw'
        obtain ⟨l, hl, hwl⟩ := hw'
        rw [List.mem_map] at hl
        obtain ⟨⟨ch, child⟩, hpr, rfl⟩ := hl
        obtain ⟨s, hs⟩ := hchunk ch child hpr w hwl
        rw [hwp] at hs
        have := congrArg List.length hs
        simp at this

/-- C4 (amended): words from letters.  For a dictionary built by inserting
`ws`, `find_words_from_letters` returns exactly the inserted words whose
length lies in `[min_length, M]` and whose letter multiset is contained in
the available multiset, each emitted once — where `M` is the Python
`max_length or sum(letters.values())`: the available total when `max_length`
is `None` **or 0** (both falsy), else `max_length`.  The available multiset
itself is passed by value (`Counter(letters)`) and never mutated. -/
theorem claim_C4_find_words (ws : List (List Char)) (available : List Char)
    (minLen : Nat) (maxLen : Option Nat) :
    (findWordsFromLetters (trieOfWords ws) available minLen maxLen).Nodup ∧
    (∀ w : List Char,
      w ∈ findWordsFromLetters (trieOfWords ws) available minLen maxLen ↔
        (w ∈ ws ∧ minLen ≤ w.length ∧
          w.length ≤ effMaxLen available maxLen ∧
          ∀ ch, w.count ch ≤ available.count ch)) := by
  constructor
  · exact wordsDFS_nodup _ _ _ _ _ _ (TrieWF_trieOfWords ws) (by omega)
  · intro w
    show w ∈ wordsDFS (available.length + 1) (trieOfWords ws) available []
      minLen (effMaxLen available maxLen) ↔ _
    rw [wordsDFS_mem _ _ _ _ _ _ _ (TrieWF_trieOfWords ws) (by omega)]
    constructor
    · rintro ⟨s, heq, hacc, hcount, hmin, hmax⟩
      have hw : w = s := by simpa using heq
      rw [hw]
      refine ⟨(walkAccept_trieOfWords ws s).mp hacc, by simpa using hmin,
        ?_, hcount⟩
      rcases hmax with h | h
      · subst h
        simp
      · simpa using h
    · rintro ⟨hmem, hmin, hmax, hcount⟩
      exact ⟨w, by simp, (walkAccept_trieOfWords ws w).mpr hmem, hcount,
        by simpa using hmin, Or.inr (by simpa using hmax)⟩

/-- Counterexample to C4 as stated: with `max_length = 0` the claim demands
an empty result (no word has length ≤ 0), but Python's
`max_length or sum(letters.values())` treats 0 as falsy and falls back to
the full available count, so the word AB of length 2 is returned. -/
theorem claim_C4_counterexample :
    ['A', 'B'] ∈ findWordsFromLetters (trieOfWords [['A', 'B']])
      ['A', 'B'] 2 (some 0) ∧
    ¬ ((['A', 'B'] : List Char).length ≤ 0) := by decide

end Peeler

namespace Peeler

/-! ### C1 — run geometry of the cell map -/

theorem ptAlong_zero (p : Int × Int) (d : Direction) : ptAlong p d 0 = p := by
  simp [ptAlong]

theorem ptAlong_add (p : Int × Int) (d : Direction) (k j : Int) :
    ptAlong (ptAlong p d k) d j = ptAlong p d (k + j) := by
  simp [ptAlong]
  constructor <;> ring

theorem ptAlong_inj {p : Int × Int} {d : Direction} {k j : Int}
    (h : ptAlong p d k = ptAlong p d j) : k = j := by
  cases d <;>
    · simp only [ptAlong, Direction.val, Prod.mk.injEq] at h
      omega

theorem ptAlong_one (p : Int × Int) (d : Direction) :
    ptAlong p d 1 = (p.1 + d.val.1, p.2 + d.val.2) := by
  simp [ptAlong]

theorem ptAlong_neg_one (p : Int × Int) (d : Direction) :
    ptAlong p d (-1) = (p.1 - d.val.1, p.2 - d.val.2) := by
  simp [ptAlong, sub_eq_add_neg]

/-- An interval of occupied offsets cannot be longer than the cell map. -/
theorem occupied_offsets_le (cells : Cells) (p : Int × Int) (d : Direction)
    (a b : Int) (hab : a ≤ b)
    (hocc : ∀ k : Int, a ≤ k → k ≤ b → memCell cells (ptAlong p d k) = true) :
    b - a + 1 ≤ (cells.length : Int) := by
  have hL : ((b - a + 1).toNat : Int) = b - a + 1 := Int.toNat_of_nonneg (by omega)
  set L := (b - a + 1).toNat with hLdef
  set f : Nat → Int × Int := fun j => ptAlong p d (a + j) with hf
  have hnd : ((List.range L).map f).Nodup := by
    refine List.Nodup.map ?_ (List.nodup_range L)
    intro i j hij
    have := ptAlong_inj hij
    omega
  have hsub : ((List.range L).map f).toFinset ⊆ (cells.map Prod.fst).toFinset := by
    intro x hx
    rw [List.mem_toFinset] at hx ⊢
    rcases List.mem_map.mp hx with ⟨j, hj, rfl⟩
    rw [List.mem_range] at hj
    have hj' : (j : Int) ≤ b - a := by omega
    have := hocc (a + j) (by omega) (by omega)
    exact (memCell_iff_mem_keys cells (f j)).mp this
  have hcard : ((List.range L).map f).toFinset.card = L := by
    rw [List.toFinset_card_of_nodup hnd]
    simp
  have := Finset.card_le_card hsub
  have hle2 := List.toFinset_card_le (cells.map Prod.fst)
  rw [hcard] at this
  simp only [List.length_map] at hle2
  have : L ≤ cells.length := le_trans this hle2
  omega

/-- Every occupied coordinate lies inside a maximal occupied interval. -/
theorem runBounds_exists (cells : Cells) (p : Int × Int) (d : Direction)
    (hp : memCell cells p = true) : ∃ a b : Int, RunBounds cells p d a b := by
  have hgb : ∃ m : Nat, memCell cells (ptAlong p d (-((m : Int) + 1))) = false := by
    by_contra hno
    push_neg at hno
    have hall : ∀ m : Nat, memCell cells (ptAlong p d (-((m : Int) + 1))) = true := by
      intro m
      have := hno m
      cases hmc : memCell cells (ptAlong p d (-((m : Int) + 1)))
      · exact absurd hmc this
      · rfl
    have := occupied_offsets_le cells p d (-((cells.length : Int) + 1)) 0 (by omega) ?_
    · omega
    · intro k hk1 hk2
      rcases eq_or_lt_of_le hk2 with heq | hlt
      · rw [heq, ptAlong_zero]
        exact hp
      · have hm : ((-k - 1).toNat : Int) = -k - 1 := Int.toNat_of_nonneg (by omega)
        have := hall (-k - 1).toNat
        rwa [show (-(((-k - 1).toNat : Int) + 1)) = k by omega] at this
  have hgf : ∃ m : Nat, memCell cells (ptAlong p d ((m : Int) + 1)) = false := by
    by_contra hno
    push_neg at hno
    have hall : ∀ m : Nat, memCell cells (ptAlong p d ((m : Int) + 1)) = true := by
      intro m
      have := hno m
      cases hmc : memCell cells (ptAlong p d ((m : Int) + 1))
      · exact absurd hmc this
      · rfl
    have := occupied_offsets_le cells p d 0 ((cells.length : Int) + 1) (by omega) ?_
    · omega
    · intro k hk1 hk2
      rcases eq_or_lt_of_le hk1 with heq | hlt
      · rw [← heq, ptAlong_zero]
        exact hp
      · have := hall (k - 1).toNat
        rwa [show ((((k - 1).toNat : Int)) + 1) = k by omega] at this
  refine ⟨-(Nat.find hgb : Int), (Nat.find hgf : Int), ?_, ?_, ?_, ?_, ?_⟩
  · omega
  · omega
  · intro k hk1 hk2
    rcases lt_trichotomy k 0 with hneg | hzero | hpos
    · have hj : ((-k - 1).toNat : Int) = -k - 1 := Int.toNat_of_nonneg (by omega)
      have hjlt : (-k - 1).toNat < Nat.find hgb := by omega
      have := Nat.find_min hgb hjlt
      cases hmc : memCell cells (ptAlong p d (-(((-k - 1).toNat : Int)) - 1))
      · exfalso
        apply this
        rwa [show (-(((-k - 1).toNat : Int) + 1)) = -(((-k - 1).toNat : Int)) - 1 by omega]
      · rwa [show (-(((-k - 1).toNat : Int)) - 1) = k by omega] at hmc
    · rw [hzero, ptAlong_zero]
      exact hp
    · have hj : ((k - 1).toNat : Int) = k - 1 := Int.toNat_of_nonneg (by omega)
      have hjlt : (k - 1).toNat < Nat.find hgf := by omega
      have := Nat.find_min hgf hjlt
      cases hmc : memCell cells (ptAlong p d (((k - 1).toNat : Int) + 1))
      · exact absurd hmc this
      · rwa [show ((((k - 1).toNat : Int)) + 1) = k by omega] at hmc
  · have := Nat.find_spec hgb
    rwa [show (-((Nat.find hgb : Int) + 1)) = -(Nat.find hgb : Int) - 1 by omega] at this
  · exact Nat.find_spec hgf


theorem ptAlong_cast (p : Int × Int) (d : Direction) {k j : Int} (h : k = j) :
    ptAlong p d k = ptAlong p d j := by rw [h]

/-- The backward loop of `_get_run` stops exactly at the first gap. -/
theorem runStart_spec (cells : Cells) (d : Direction) :
    ∀ (n fuel : Nat) (p : Int × Int),
      memCell cells (ptAlong p d (-((n : Int) + 1))) = false →
      (∀ j : Nat, j < n → memCell cells (ptAlong p d (-((j : Int) + 1))) = true) →
      n < fuel →
      runStart cells d.val.1 d.val.2 fuel p.1 p.2 = ptAlong p d (-(n : Int)) := by
  intro n
  induction n with
  | zero =>
    intro fuel p hgap _ hfuel
    obtain ⟨f, rfl⟩ : ∃ f, fuel = f + 1 := ⟨fuel - 1, by omega⟩
    have hm : memCell cells (p.1 - d.val.1, p.2 - d.val.2) = false := by
      rw [← ptAlong_neg_one]
      rwa [ptAlong_cast p d (show -(((0 : Nat) : Int) + 1) = (-1 : Int) by norm_num)] at hgap
    simp [runStart, hm, ptAlong]
  | succ n ih =>
    intro fuel p hgap hocc hfuel
    obtain ⟨f, rfl⟩ : ∃ f, fuel = f + 1 := ⟨fuel - 1, by omega⟩
    have hm : memCell cells (p.1 - d.val.1, p.2 - d.val.2) = true := by
      rw [← ptAlong_neg_one]
      have h0 := hocc 0 (by omega)
      rwa [ptAlong_cast p d (show -(((0 : Nat) : Int) + 1) = (-1 : Int) by norm_num)] at h0
    have hstep : runStart cells d.val.1 d.val.2 (f + 1) p.1 p.2 =
        runStart cells d.val.1 d.val.2 f (p.1 - d.val.1) (p.2 - d.val.2) := by
      simp [runStart, hm]
    rw [hstep]
    have hgap2 : memCell cells
        (ptAlong (p.1 - d.val.1, p.2 - d.val.2) d (-((n : Int) + 1))) = false := by
      rw [← ptAlong_neg_one, ptAlong_add]
      rwa [ptAlong_cast p d (show -(((n + 1 : Nat) : Int) + 1) =
        (-1 : Int) + -((n : Int) + 1) by push_cast; ring)] at hgap
    have hocc2 : ∀ j : Nat, j < n → memCell cells
        (ptAlong (p.1 - d.val.1, p.2 - d.val.2) d (-((j : Int) + 1))) = true := by
      intro j hj
      rw [← ptAlong_neg_one, ptAlong_add]
      have hj1 := hocc (j + 1) (by omega)
      rwa [ptAlong_cast p d (show -(((j + 1 : Nat) : Int) + 1) =
        (-1 : Int) + -((j : Int) + 1) by push_cast; ring)] at hj1
    have hres := ih f (p.1 - d.val.1, p.2 - d.val.2) hgap2 hocc2 (by omega)
    dsimp only at hres
    rw [hres, ← ptAlong_neg_one, ptAlong_add]
    exact ptAlong_cast p d (by push_cast; ring)

/-- The forward loop of `_get_run` reads exactly the letters up to the first
gap. -/
theorem readRun_spec (cells : Cells) (d : Direction) :
    ∀ (L fuel : Nat) (p : Int × Int),
      (∀ j : Nat, j < L → memCell cells (ptAlong p d (j : Int)) = true) →
      memCell cells (ptAlong p d (L : Int)) = false →
      L ≤ fuel →
      (readRun cells d.val.1 d.val.2 fuel p.1 p.2).length = L ∧
      ∀ j : Nat, j < L → (readRun cells d.val.1 d.val.2 fuel p.1 p.2)[j]? =
        lookupCell cells (ptAlong p d (j : Int)) := by
  intro L
  induction L with
  | zero =>
    intro fuel p _ hgap _
    have hnone : lookupCell cells p = none := by
      rw [← memCell_false_iff]
      rwa [Nat.cast_zero, ptAlong_zero] at hgap
    have hrr : readRun cells d.val.1 d.val.2 fuel p.1 p.2 = [] := by
      cases fuel with
      | zero => rfl
      | succ f => simp [readRun, Prod.mk.eta, hnone]
    rw [hrr]
    exact ⟨rfl, fun j hj => absurd hj (Nat.not_lt_zero j)⟩
  | succ L ih =>
    intro fuel p hocc hgap hfuel
    obtain ⟨f, rfl⟩ : ∃ f, fuel = f + 1 := ⟨fuel - 1, by omega⟩
    have hp0 : memCell cells p = true := by
      have h0 := hocc 0 (by omega)
      rwa [Nat.cast_zero, ptAlong_zero] at h0
    obtain ⟨ch, hch⟩ : ∃ ch, lookupCell cells p = some ch := by
      unfold memCell at hp0
      cases hl : lookupCell cells p
      · rw [hl] at hp0
        simp at hp0
      · exact ⟨_, rfl⟩
    have hrr : readRun cells d.val.1 d.val.2 (f + 1) p.1 p.2 =
        ch :: readRun cells d.val.1 d.val.2 f (p.1 + d.val.1) (p.2 + d.val.2) := by
      simp [readRun, Prod.mk.eta, hch]
    have hocc2 : ∀ j : Nat, j < L →
        memCell cells (ptAlong (p.1 + d.val.1, p.2 + d.val.2) d (j : Int)) = true := by
      intro j hj
      rw [← ptAlong_one, ptAlong_add]
      have hj1 := hocc (j + 1) (by omega)
      rwa [ptAlong_cast p d (show (((j + 1 : Nat) : Int)) =
        (1 : Int) + (j : Int) by push_cast; ring)] at hj1
    have hgap2 : memCell cells
        (ptAlong (p.1 + d.val.1, p.2 + d.val.2) d (L : Int)) = false := by
      rw [← ptAlong_one, ptAlong_add]
      rwa [ptAlong_cast p d (show (((L + 1 : Nat) : Int)) =
        (1 : Int) + (L : Int) by push_cast; ring)] at hgap
    obtain ⟨ihlen, ihget⟩ := ih f (p.1 + d.val.1, p.2 + d.val.2) hocc2 hgap2 (by omega)
    dsimp only at ihlen ihget
    rw [hrr]
    constructor
    · simp [ihlen]
    · intro j hj
      cases j with
      | zero =>
        simp only [List.getElem?_cons_zero]
        rw [Nat.cast_zero, ptAlong_zero, hch]
      | succ j =>
        simp only [List.getElem?_cons_succ]
        rw [ihget j (by omega), ← ptAlong_one, ptAlong_add,
          ptAlong_cast p d (show (1 : Int) + (j : Int) =
            (((j + 1 : Nat)) : Int) by push_cast; ring)]


/-- Characterization of `_get_run` by the maximal occupied interval around the
probe point: the run has one letter per offset of the interval, read from the
cell map in order. -/
theorem getRun_spec (cells : Cells) (p : Int × Int) (d : Direction) (a b : Int)
    (hrb : RunBounds cells p d a b) :
    ((getRun cells p.1 p.2 d).length : Int) = b - a + 1 ∧
    ∀ j : Nat, (j : Int) < b - a + 1 →
      (getRun cells p.1 p.2 d)[j]? = lookupCell cells (ptAlong p d (a + (j : Int))) := by
  obtain ⟨ha0, hb0, hocc, hga, hgb⟩ := hrb
  have hlenback := occupied_offsets_le cells p d a 0 ha0
    (fun k h1 h2 => hocc k h1 (le_trans h2 hb0))
  have hlenfull := occupied_offsets_le cells p d a b (le_trans ha0 hb0) hocc
  have hna : ((((-a).toNat) : Nat) : Int) = -a := Int.toNat_of_nonneg (by omega)
  set n : Nat := (-a).toNat with hn
  have hstart : runStart cells d.val.1 d.val.2 (cells.length + 1) p.1 p.2 =
      ptAlong p d (-(n : Int)) := by
    apply runStart_spec cells d n (cells.length + 1) p
    · rwa [ptAlong_cast p d (show -((n : Int) + 1) = a - 1 by omega)]
    · intro j hj
      exact hocc _ (by omega) (by omega)
    · omega
  have hL : (((b - a + 1).toNat : Nat) : Int) = b - a + 1 := Int.toNat_of_nonneg (by omega)
  set L : Nat := (b - a + 1).toNat with hLdef
  set s : Int × Int := ptAlong p d a with hs
  have hstart2 : runStart cells d.val.1 d.val.2 (cells.length + 1) p.1 p.2 = s := by
    rw [hstart, hs]
    exact ptAlong_cast p d (by omega)
  have hocc2 : ∀ j : Nat, j < L → memCell cells (ptAlong s d (j : Int)) = true := by
    intro j hj
    rw [hs, ptAlong_add]
    exact hocc _ (by omega) (by omega)
  have hgap2 : memCell cells (ptAlong s d (L : Int)) = false := by
    rw [hs, ptAlong_add]
    rwa [ptAlong_cast p d (show a + (L : Int) = b + 1 by omega)]
  obtain ⟨hlen, hget⟩ := readRun_spec cells d L (cells.length + 1) s hocc2 hgap2 (by omega)
  have hgr : getRun cells p.1 p.2 d =
      readRun cells d.val.1 d.val.2 (cells.length + 1) s.1 s.2 := by
    simp only [getRun]
    rw [hstart2]
  constructor
  · rw [hgr, hlen]
    omega
  · intro j hj
    rw [hgr, hget j (by omega), hs, ptAlong_add]

/-- The maximal occupied interval around a point is unique. -/
theorem runBounds_unique {cells : Cells} {p : Int × Int} {d : Direction}
    {a b x y : Int} (h1 : RunBounds cells p d a b) (h2 : RunBounds cells p d x y) :
    a = x ∧ b = y := by
  obtain ⟨ha1, hb1, ho1, hga1, hgb1⟩ := h1
  obtain ⟨ha2, hb2, ho2, hga2, hgb2⟩ := h2
  constructor
  · rcases lt_trichotomy a x with h | h | h
    · have := ho1 (x - 1) (by omega) (by omega)
      simp [this] at hga2
    · exact h
    · have := ho2 (a - 1) (by omega) (by omega)
      simp [this] at hga1
  · rcases lt_trichotomy b y with h | h | h
    · have := ho2 (b + 1) (by omega) (by omega)
      simp [this] at hgb1
    · exact h
    · have := ho1 (y + 1) (by omega) (by omega)
      simp [this] at hgb2

/-- A maximal interval re-based at one of its own occupied points. -/
theorem runBounds_shift {cells : Cells} {p : Int × Int} {d : Direction}
    {a b : Int} (h : RunBounds cells p d a b) (k : Int) (hak : a ≤ k)
    (hkb : k ≤ b) : RunBounds cells (ptAlong p d k) d (a - k) (b - k) := by
  obtain ⟨ha, hb, ho, hga, hgb⟩ := h
  refine ⟨by omega, by omega, ?_, ?_, ?_⟩
  · intro j hj1 hj2
    rw [ptAlong_add]
    exact ho _ (by omega) (by omega)
  · rw [ptAlong_add]
    rwa [ptAlong_cast p d (show k + (a - k - 1) = a - 1 by ring)]
  · rw [ptAlong_add]
    rwa [ptAlong_cast p d (show k + (b - k + 1) = b + 1 by ring)]

/-- `_get_run` probed from any point of the same run returns the same word. -/
theorem getRun_shift {cells : Cells} {p : Int × Int} {d : Direction} {a b : Int}
    (h : RunBounds cells p d a b) (k : Int) (hak : a ≤ k) (hkb : k ≤ b) :
    getRun cells (ptAlong p d k).1 (ptAlong p d k).2 d = getRun cells p.1 p.2 d := by
  obtain ⟨hl1, hg1⟩ :=
    getRun_spec cells (ptAlong p d k) d (a - k) (b - k) (runBounds_shift h k hak hkb)
  obtain ⟨hl2, hg2⟩ := getRun_spec cells p d a b h
  apply List.ext_getElem?
  intro i
  by_cases hi : (i : Int) < b - a + 1
  · rw [hg1 i (by omega), hg2 i hi, ptAlong_add]
    exact congrArg (lookupCell cells) (ptAlong_cast p d (by ring))
  · rw [List.getElem?_eq_none (by omega :
        (getRun cells (ptAlong p d k).1 (ptAlong p d k).2 d).length ≤ i),
      List.getElem?_eq_none (by omega : (getRun cells p.1 p.2 d).length ≤ i)]

/-- Two cell maps agreeing on a shared maximal interval produce the same run. -/
theorem getRun_congr {cells cellsB : Cells} {p : Int × Int} {d : Direction}
    {a b : Int} (h : RunBounds cells p d a b) (hB : RunBounds cellsB p d a b)
    (heq : ∀ k : Int, a ≤ k → k ≤ b →
      lookupCell cellsB (ptAlong p d k) = lookupCell cells (ptAlong p d k)) :
    getRun cellsB p.1 p.2 d = getRun cells p.1 p.2 d := by
  obtain ⟨hl1, hg1⟩ := getRun_spec cellsB p d a b hB
  obtain ⟨hl2, hg2⟩ := getRun_spec cells p d a b h
  apply List.ext_getElem?
  intro i
  by_cases hi : (i : Int) < b - a + 1
  · rw [hg1 i hi, hg2 i hi]
    exact heq _ (by omega) (by omega)
  · rw [List.getElem?_eq_none (by omega : (getRun cellsB p.1 p.2 d).length ≤ i),
      List.getElem?_eq_none (by omega : (getRun cells p.1 p.2 d).length ≤ i)]


/-! ### Reachability lemmas -/

theorem adjacentCell_symm {p q : Int × Int} (h : adjacentCell p q) :
    adjacentCell q p := by
  rcases h with h | h | h | h <;> subst h <;>
    simp [adjacentCell, Prod.ext_iff]

theorem reach_mem_left {cells : Cells} {p q : Int × Int}
    (h : ReachCells cells p q) : memCell cells p = true := by
  induction h with
  | refl hx => exact hx
  | tail x y hpx hadj hy ih => exact ih

theorem reach_mem_right {cells : Cells} {p q : Int × Int}
    (h : ReachCells cells p q) : memCell cells q = true := by
  induction h with
  | refl hx => exact hx
  | tail x y hpx hadj hy ih => exact hy

theorem reach_trans {cells : Cells} {p q r : Int × Int}
    (h1 : ReachCells cells p q) (h2 : ReachCells cells q r) :
    ReachCells cells p r := by
  induction h2 with
  | refl hx => exact h1
  | tail x y hqx hadj hy ih => exact ReachCells.tail _ _ _ ih hadj hy

theorem reach_single {cells : Cells} {p q : Int × Int}
    (hp : memCell cells p = true) (hadj : adjacentCell p q)
    (hq : memCell cells q = true) : ReachCells cells p q :=
  ReachCells.tail p p q (ReachCells.refl p hp) hadj hq

theorem reach_symm {cells : Cells} {p q : Int × Int}
    (h : ReachCells cells p q) : ReachCells cells q p := by
  induction h with
  | refl hx => exact ReachCells.refl _ hx
  | tail x y hpx hadj hy ih =>
    exact reach_trans (reach_single hy (adjacentCell_symm hadj) (reach_mem_right hpx)) ih

theorem reach_mono {cells cellsB : Cells}
    (hsub : ∀ x, memCell cells x = true → memCell cellsB x = true)
    {p q : Int × Int} (h : ReachCells cells p q) : ReachCells cellsB p q := by
  induction h with
  | refl hx => exact ReachCells.refl _ (hsub _ hx)
  | tail x y hpx hadj hy ih => exact ReachCells.tail _ _ _ ih hadj (hsub _ hy)

theorem adjacent_ptAlong (p : Int × Int) (d : Direction) (k : Int) :
    adjacentCell (ptAlong p d k) (ptAlong p d (k + 1)) := by
  cases d <;> simp [adjacentCell, ptAlong, Direction.val, Prod.ext_iff] <;> omega

/-! ### Word-position occupancy after a successful placement -/

theorem mem_wordPositions {w : List Char} {row col : Int} {d : Direction}
    {p : Int × Int} (h : p ∈ wordPositions w row col d) :
    ∃ i : Nat, i < w.length ∧ p = ptAlong (row, col) d (i : Int) := by
  unfold wordPositions at h
  rcases List.mem_map.mp h with ⟨i, hi, rfl⟩
  rw [List.mem_range] at hi
  exact ⟨i, hi, rfl⟩

theorem wordPositions_getElem (w : List Char) (row col : Int) (d : Direction)
    {i : Nat} (hi : i < w.length) :
    (wordPositions w row col d)[i]? = some (ptAlong (row, col) d (i : Int)) := by
  unfold wordPositions
  rw [List.getElem?_map, List.getElem?_range hi]
  rfl

theorem mem_zip_of_getElem {α β : Type} {l1 : List α} {l2 : List β} :
    ∀ {i : Nat} {a : α} {b : β}, l1[i]? = some a → l2[i]? = some b →
      (a, b) ∈ l1.zip l2 := by
  induction l1 generalizing l2 with
  | nil => intro i a b h1 _; simp at h1
  | cons x xs ih =>
    intro i a b h1 h2
    cases l2 with
    | nil => simp at h2
    | cons y ys =>
      cases i with
      | zero =>
        rw [List.getElem?_cons_zero] at h1 h2
        obtain rfl := Option.some.inj h1
        obtain rfl := Option.some.inj h2
        exact List.mem_cons_self _ _
      | succ i =>
        rw [List.getElem?_cons_succ] at h1 h2
        exact List.mem_cons_of_mem _ (ih h1 h2)

theorem place_some_lookup {g : Grid} {w : List Char} {row col : Int}
    {d : Direction} {t : Trie} {gB : Grid} {pw : PlacedWord}
    (h : g.place_word w row col d t = (gB, some pw)) {i : Nat}
    (hi : i < w.length) :
    lookupCell gB.cells (ptAlong (row, col) d (i : Int)) = w[i]? := by
  obtain ⟨es, _, _, _, _, _, _, _, hall, _, _, _, _⟩ := place_word_some h
  obtain ⟨chi, hchi⟩ : ∃ ch, w[i]? = some ch := ⟨w[i], List.getElem?_eq_getElem hi⟩
  have hmemz := mem_zip_of_getElem (wordPositions_getElem w row col d hi) hchi
  rw [hchi]
  exact hall _ hmemz

theorem place_some_mem {g : Grid} {w : List Char} {row col : Int}
    {d : Direction} {t : Trie} {gB : Grid} {pw : PlacedWord}
    (h : g.place_word w row col d t = (gB, some pw)) {i : Nat}
    (hi : i < w.length) :
    memCell gB.cells (ptAlong (row, col) d (i : Int)) = true := by
  unfold memCell
  rw [place_some_lookup h hi, List.getElem?_eq_getElem hi]
  rfl

theorem direction_eq_or_perp (d dir : Direction) : dir = d ∨ dir = d.perp := by
  cases d <;> cases dir <;> simp [Direction.perp]

/-! ### One placement step preserves the state invariants -/

/-- A successful `place_word` call with a dictionary word preserves
invariants (a), (b) and (d). -/
theorem place_preserves_inv {g : Grid} {w : List Char} {row col : Int}
    {d : Direction} {t : Trie} {gB : Grid} {pw : PlacedWord}
    (h : g.place_word w row col d t = (gB, some pw))
    (hw : t.isValidWord w = true)
    (hka : KeysDistinct g.cells) (hcb : ConnectedCells g.cells)
    (hrv : RunsValid t g.cells) :
    KeysDistinct gB.cells ∧ ConnectedCells gB.cells ∧ RunsValid t gB.cells := by
  obtain ⟨es, hpweq, hcells, hplaced, hnext, hfresh, hnodup, hmemz, hall,
    hbefore, hafter, hinter, hperp⟩ := place_word_some h
  have hkeypos : ∀ q ∈ es.map Prod.fst, ∃ i : Nat, i < w.length ∧
      q = ptAlong (row, col) d (i : Int) := by
    intro q hq
    rcases List.mem_map.mp hq with ⟨e, he, rfl⟩
    obtain ⟨x, ch⟩ := e
    exact mem_wordPositions (List.of_mem_zip (hmemz _ he)).1
  have hposmem : ∀ i : Nat, i < w.length →
      memCell gB.cells (ptAlong (row, col) d (i : Int)) = true := fun i hi =>
    place_some_mem h hi
  have hlk : ∀ x : Int × Int, x ∉ es.map Prod.fst →
      lookupCell gB.cells x = lookupCell g.cells x := by
    intro x hx
    rw [hcells, lookupCell_append]
    have hes : lookupCell es x = none := by
      rw [← memCell_false_iff]
      cases hmc : memCell es x
      · rfl
      · exact absurd ((memCell_iff_mem_keys es x).mp hmc) hx
    rw [hes]
    cases lookupCell g.cells x <;> rfl
  have hmemB : ∀ x, memCell gB.cells x = true ↔
      (memCell g.cells x = true ∨ x ∈ es.map Prod.fst) := by
    intro x
    rw [hcells, memCell_append, Bool.or_eq_true, memCell_iff_mem_keys es x]
  have hmono : ∀ x, memCell g.cells x = true → memCell gB.cells x = true := by
    intro x hx
    rw [hcells, memCell_append, hx]
    rfl
  have hbna : ptAlong (row, col) d (-1) ∉ es.map Prod.fst := by
    intro hx
    rcases hkeypos _ hx with ⟨i, hi, heq⟩
    have := ptAlong_inj heq
    omega
  have hana : ptAlong (row, col) d ((w.length : Int)) ∉ es.map Prod.fst := by
    intro hx
    rcases hkeypos _ hx with ⟨i, hi, heq⟩
    have := ptAlong_inj heq
    omega
  have hbefore2 : memCell gB.cells (ptAlong (row, col) d (-1)) = false := by
    rw [hcells, memCell_append]
    have h1 : memCell g.cells (ptAlong (row, col) d (-1)) = false := by
      rw [ptAlong_neg_one]
      exact hbefore
    have h2 : memCell es (ptAlong (row, col) d (-1)) = false := by
      cases hmc : memCell es (ptAlong (row, col) d (-1))
      · rfl
      · exact absurd ((memCell_iff_mem_keys es _).mp hmc) hbna
    rw [h1, h2]
    rfl
  have hafter2 : memCell gB.cells (ptAlong (row, col) d ((w.length : Int))) = false := by
    rw [hcells, memCell_append]
    have h1 : memCell g.cells (ptAlong (row, col) d ((w.length : Int))) = false :=
      hafter
    have h2 : memCell es (ptAlong (row, col) d ((w.length : Int))) = false := by
      cases hmc : memCell es (ptAlong (row, col) d ((w.length : Int)))
      · rfl
      · exact absurd ((memCell_iff_mem_keys es _).mp hmc) hana
    rw [h1, h2]
    rfl
  have hwordBounds : 0 < w.length →
      RunBounds gB.cells (row, col) d 0 ((w.length : Int) - 1) := by
    intro hwpos
    refine ⟨le_refl 0, by omega, ?_, ?_, ?_⟩
    · intro k hk1 hk2
      have hk : (k.toNat : Int) = k := Int.toNat_of_nonneg hk1
      have := hposmem k.toNat (by omega)
      rwa [ptAlong_cast (row, col) d (show ((k.toNat : Nat) : Int) = k by omega)] at this
    · rw [ptAlong_cast (row, col) d (show (0 : Int) - 1 = -1 by ring)]
      exact hbefore2
    · rw [ptAlong_cast (row, col) d
        (show ((w.length : Int) - 1) + 1 = (w.length : Int) by ring)]
      exact hafter2
  have hrun0 : 0 < w.length → getRun gB.cells row col d = w := by
    intro hwpos
    obtain ⟨hl, hg⟩ :=
      getRun_spec gB.cells (row, col) d 0 ((w.length : Int) - 1) (hwordBounds hwpos)
    dsimp only at hl hg
    apply List.ext_getElem?
    intro i
    by_cases hi : (i : Int) < (w.length : Int) - 1 - 0 + 1
    · rw [hg i (by omega)]
      rw [ptAlong_cast (row, col) d (show (0 : Int) + (i : Int) = (i : Int) by ring)]
      exact place_some_lookup h (by omega)
    · rw [List.getElem?_eq_none (show (getRun gB.cells row col d).length ≤ i by omega),
        List.getElem?_eq_none (show w.length ≤ i by omega)]
  refine ⟨?_, ?_, ?_⟩
  · -- (a) distinct keys
    unfold KeysDistinct at hka ⊢
    rw [hcells, List.map_append, List.nodup_append]
    refine ⟨hka, hnodup, ?_⟩
    intro x hx1 hx2
    rcases List.mem_map.mp hx2 with ⟨e, he, rfl⟩
    have h1 := hfresh e he
    have h2 := (memCell_iff_mem_keys g.cells e.1).mpr hx1
    rw [h1] at h2
    simp at h2
  · -- (b) connectivity
    have hseg : ∀ (n i : Nat), i + n < w.length →
        ReachCells gB.cells (ptAlong (row, col) d (i : Int))
          (ptAlong (row, col) d ((i + n : Nat) : Int)) := by
      intro n
      induction n with
      | zero =>
        intro i hi
        exact ReachCells.refl _ (hposmem i (by omega))
      | succ n ih =>
        intro i hi
        refine ReachCells.tail _ _ _ (ih i (by omega)) ?_ ?_
        · have := adjacent_ptAlong (row, col) d ((i + n : Nat) : Int)
          rwa [ptAlong_cast (row, col) d (show ((i + n : Nat) : Int) + 1 =
            ((i + (n + 1) : Nat) : Int) by push_cast; ring)] at this
        · exact hposmem (i + (n + 1)) (by omega)
    have hreach2 : ∀ i j : Nat, i < w.length → j < w.length →
        ReachCells gB.cells (ptAlong (row, col) d (i : Int))
          (ptAlong (row, col) d (j : Int)) := by
      intro i j hi hj
      rcases le_or_lt i j with hij | hij
      · have := hseg (j - i) i (by omega)
        rwa [show i + (j - i) = j by omega] at this
      · have := hseg (i - j) j (by omega)
        rw [show j + (i - j) = i by omega] at this
        exact reach_symm this
    intro p q hp hq
    by_cases hemp : g.cells = []
    · have hpos : ∀ x, memCell gB.cells x = true →
          ∃ i : Nat, i < w.length ∧ x = ptAlong (row, col) d (i : Int) := by
        intro x hx
        rcases (hmemB x).mp hx with hxold | hxnew
        · rw [hemp] at hxold
          simp [memCell, lookupCell] at hxold
        · exact hkeypos x hxnew
      rcases hpos p hp with ⟨i, hi, rfl⟩
      rcases hpos q hq with ⟨j, hj, rfl⟩
      exact hreach2 i j hi hj
    · rcases hinter with hemp2 | ⟨pc, hpcz, hpclk⟩
      · exact absurd hemp2 hemp
      obtain ⟨iA, hiA, hpc1⟩ : ∃ iA : Nat, iA < w.length ∧
          pc.1 = ptAlong (row, col) d (iA : Int) := by
        obtain ⟨x, ch⟩ := pc
        exact mem_wordPositions (List.of_mem_zip hpcz).1
      have hanchor_old : memCell g.cells pc.1 = true := by
        unfold memCell
        rw [hpclk]
        rfl
      have hto : ∀ x, memCell gB.cells x = true → ReachCells gB.cells x pc.1 := by
        intro x hx
        rcases (hmemB x).mp hx with hxold | hxnew
        · exact reach_mono hmono (hcb x pc.1 hxold hanchor_old)
        · rcases hkeypos x hxnew with ⟨i, hi, rfl⟩
          rw [hpc1]
          exact hreach2 i iA hi hiA
      exact reach_trans (hto p hp) (reach_symm (hto q hq))
  · -- (d) runs valid
    intro p hp dir hlen2
    obtain ⟨a, b, hbounds⟩ := runBounds_exists gB.cells p dir hp
    obtain ⟨hlA, hgA⟩ := getRun_spec gB.cells p dir a b hbounds
    by_cases hnew : ∃ k : Int, a ≤ k ∧ k ≤ b ∧ ptAlong p dir k ∈ es.map Prod.fst
    · -- the run touches a newly written cell
      obtain ⟨k0, hk0a, hk0b, hk0mem⟩ := hnew
      obtain ⟨i, hi, hqi⟩ := hkeypos _ hk0mem
      have hwpos : 0 < w.length := by omega
      rcases direction_eq_or_perp d dir with hdir | hdir
      · -- the run lies on the word axis: it is the word itself
        subst hdir
        have hq1 : getRun gB.cells (ptAlong p dir k0).1 (ptAlong p dir k0).2 dir =
            getRun gB.cells p.1 p.2 dir := getRun_shift hbounds k0 hk0a hk0b
        have hq2 : getRun gB.cells (ptAlong (row, col) dir (i : Int)).1
            (ptAlong (row, col) dir (i : Int)).2 dir =
            getRun gB.cells (row, col).1 (row, col).2 dir :=
          getRun_shift (hwordBounds hwpos) (i : Int) (by omega) (by omega)
        rw [← hq1, hqi, hq2]
        dsimp only
        rw [hrun0 hwpos]
        exact hw
      · -- the run is perpendicular to the word: checked by `place_word`
        subst hdir
        have hpb := hperp _ hk0mem
        have hba : 1 ≤ b - a := by omega
        obtain ⟨hq1, hq2, hq3, hq4, hq5⟩ := runBounds_shift hbounds k0 hk0a hk0b
        have hnbr : (memCell gB.cells ((ptAlong p d.perp k0).1 + d.perp.val.1,
              (ptAlong p d.perp k0).2 + d.perp.val.2) ||
            memCell gB.cells ((ptAlong p d.perp k0).1 - d.perp.val.1,
              (ptAlong p d.perp k0).2 - d.perp.val.2)) = true := by
          rcases lt_or_le (a - k0) 0 with hlt | hle
          · have := hq3 (-1) (by omega) (by omega)
            rw [ptAlong_neg_one] at this
            rw [this]
            simp
          · have := hq3 1 (by omega) (by omega)
            rw [ptAlong_one] at this
            rw [this]
            rfl
        have hrunq : getRun gB.cells (ptAlong p d.perp k0).1
            (ptAlong p d.perp k0).2 d.perp = getRun gB.cells p.1 p.2 d.perp :=
          getRun_shift hbounds k0 hk0a hk0b
        simp only [perpBadAt] at hpb
        rw [hnbr] at hpb
        simp only [if_true] at hpb
        rw [hrunq] at hpb
        have hgt1 : 1 < (getRun gB.cells p.1 p.2 d.perp).length := by omega
        simp [hgt1] at hpb
        exact hpb
    · -- the run is untouched: transfer to the old map
      push_neg at hnew
      have hlkeq : ∀ k : Int, a ≤ k → k ≤ b →
          lookupCell gB.cells (ptAlong p dir k) = lookupCell g.cells (ptAlong p dir k) := by
        intro k h1 h2
        exact hlk _ (hnew k h1 h2)
      have hOldBounds : RunBounds g.cells p dir a b := by
        obtain ⟨h1, h2, h3, h4, h5⟩ := hbounds
        refine ⟨h1, h2, ?_, ?_, ?_⟩
        · intro k hk1 hk2
          have hmem := h3 k hk1 hk2
          unfold memCell at hmem ⊢
          rwa [← hlkeq k hk1 hk2]
        · cases hmc : memCell g.cells (ptAlong p dir (a - 1))
          · rfl
          · have h6 := hmono _ hmc
            rw [h6] at h4
            simp at h4
        · cases hmc : memCell g.cells (ptAlong p dir (b + 1))
          · rfl
          · have h6 := hmono _ hmc
            rw [h6] at h5
            simp at h5
      have hpold : memCell g.cells p = true := by
        obtain ⟨h1, h2, h3, _, _⟩ := hOldBounds
        have := h3 0 h1 h2
        rwa [ptAlong_zero] at this
      have hrunEq : getRun gB.cells p.1 p.2 dir = getRun g.cells p.1 p.2 dir :=
        getRun_congr hOldBounds hbounds hlkeq
      rw [hrunEq] at hlen2 ⊢
      exact hrv p hpold dir hlen2


/-! ### Chains of board operations -/

theorem obsChain_place {t : Trie} {g gB : Grid} {w : List Char}
    {row col : Int} {d : Direction} {pw : PlacedWord}
    (hc : ObsChain t g.cells g.placed_words) (hw : t.isValidWord w = true)
    (hp : g.place_word w row col d t = (gB, some pw)) :
    ObsChain t gB.cells gB.placed_words :=
  ObsChain.cons g.cells g.placed_words g.nextId w row col d gB pw hc hw hp

theorem obsChain_undo {t : Trie} {cs : Cells} {ps : List PlacedWord}
    {pw : PlacedWord} (hc : ObsChain t cs ps) (hlast : ps.getLast? = some pw)
    (m : Nat) :
    ObsChain t (Grid.remove_word ⟨cs, ps, m⟩ pw).cells
      (Grid.remove_word ⟨cs, ps, m⟩ pw).placed_words := by
  cases hc with
  | nil => simp at hlast
  | cons cs0 ps0 n w row col d g1 pw1 hprev hw hp =>
    obtain ⟨es, hpweq, hcells, hplaced, hnext, hfresh, _, _, _, _, _, _, _⟩ :=
      place_word_some hp
    rw [hplaced, List.getLast?_concat] at hlast
    obtain rfl := Option.some.inj hlast
    have hrm : Grid.remove_word ⟨g1.cells, g1.placed_words, m⟩ pw1 =
        ⟨cs0, ps0, m⟩ := by
      rw [hcells, hplaced, remove_word_append_last]
      have hca : pw1.cells_added = es.map Prod.fst := by rw [hpweq]
      rw [hca, rollback_append hfresh]
    rw [hrm]
    exact hprev

theorem execOps_chain (t : Trie) (ops : List GOp) :
    ∀ g gB : Grid, execOps t ops g = some gB →
      ObsChain t g.cells g.placed_words →
      ObsChain t gB.cells gB.placed_words := by
  induction ops with
  | nil =>
    intro g gB h hc
    obtain rfl := Option.some.inj h
    exact hc
  | cons op ops ih =>
    intro g gB h hc
    unfold execOps at h
    cases hop : execOp t g op with
    | none =>
      rw [hop] at h
      simp at h
    | some g1 =>
      rw [hop] at h
      refine ih g1 gB h ?_
      cases op with
      | placeOp w row col d =>
        unfold execOp at hop
        dsimp only at hop
        by_cases hv : t.isValidWord w = true
        · rw [if_pos hv] at hop
          cases hpr : g.place_word w row col d t with
          | mk gx r =>
            rw [hpr] at hop
            cases r with
            | none => simp at hop
            | some pw =>
              dsimp only at hop
              obtain rfl := Option.some.inj hop
              exact obsChain_place hc hv hpr
        · rw [if_neg hv] at hop
          simp at hop
      | undoOp =>
        unfold execOp at hop
        dsimp only at hop
        cases hl : g.placed_words.getLast? with
        | none =>
          rw [hl] at hop
          simp at hop
        | some pw =>
          rw [hl] at hop
          dsimp only at hop
          obtain rfl := Option.some.inj hop
          exact obsChain_undo hc hl g.nextId

theorem obsChain_invariants {t : Trie} {cs : Cells} {ps : List PlacedWord}
    (hc : ObsChain t cs ps) :
    KeysDistinct cs ∧ ConnectedCells cs ∧ RunsValid t cs := by
  induction hc with
  | nil =>
    refine ⟨by simp [KeysDistinct], ?_, ?_⟩
    · intro p q hp hq
      simp [memCell, lookupCell] at hp
    · intro p hp dir hlen
      simp [memCell, lookupCell] at hp
  | cons cs0 ps0 n w row col d g1 pw hprev hw hp ih =>
    exact place_preserves_inv hp hw ih.1 ih.2.1 ih.2.2

/-! ### C1 — board invariants -/

/-- C1 (amended): every grid reachable from the empty grid by successful
`place_word` calls whose word is in the dictionary, together with
`remove_word` calls handed the most recently placed surviving record,
satisfies invariant (a) (each occupied coordinate holds exactly one letter:
the key list is duplicate-free), invariant (b) as a state property (the
occupied cells form a single connected component), and invariant (d)
strengthened to both axes (every maximal contiguous run of length ≥ 2
through an occupied cell is a valid dictionary word); invariant (c) holds at
placement time: a successful call finds the cells immediately before and
after the word unoccupied.  The original claim is refuted by
`claim_C1_counterexample`. -/
theorem claim_C1_board_invariants (t : Trie) (ops : List GOp) (g : Grid)
    (h : execOps t ops emptyGrid = some g) :
    KeysDistinct g.cells ∧ ConnectedCells g.cells ∧ RunsValid t g.cells ∧
    (∀ (g0 g1 : Grid) (w : List Char) (row col : Int) (d : Direction)
      (pw : PlacedWord), g0.place_word w row col d t = (g1, some pw) →
      memCell g0.cells (row - d.val.1, col - d.val.2) = false ∧
      memCell g0.cells (row + (w.length : Int) * d.val.1,
        col + (w.length : Int) * d.val.2) = false) := by
  have hchain := execOps_chain t ops emptyGrid g h ObsChain.nil
  obtain ⟨h1, h2, h3⟩ := obsChain_invariants hchain
  refine ⟨h1, h2, h3, ?_⟩
  intro g0 g1 w row col d pw hp
  obtain ⟨es, _, _, _, _, _, _, _, _, hbef, haft, _, _⟩ := place_word_some hp
  exact ⟨hbef, haft⟩

/-- Counterexample to C1 as stated: (i) a single successful `place_word`
call can leave a maximal run of length 2 that is not a dictionary word (the
placed word itself is never checked against the dictionary); (ii) after a
later successful placement the coordinate immediately before an earlier
placed word is occupied, so (c) is not a state invariant; (iii) removing a
record returned by `place_word` that is not the most recent placement
leaves a maximal run CCA that is not a dictionary word. -/
theorem claim_C1_counterexample :
    ((emptyGrid.place_word ['A', 'B'] 0 0 .across Trie.empty).2.isSome = true ∧
      memCell exGridABnd.cells (0, 0) = true ∧
      2 ≤ (getRun exGridABnd.cells 0 0 .across).length ∧
      Trie.isValidWord Trie.empty (getRun exGridABnd.cells 0 0 .across) = false) ∧
    ((exGridAT.place_word ['C', 'A', 'T'] 0 (-1) .across exTrieATCAT).2.isSome = true ∧
      exPWAT ∈ exGridCAT.placed_words ∧
      memCell exGridCAT.cells
        (exPWAT.row - exPWAT.direction.val.1,
         exPWAT.col - exPWAT.direction.val.2) = true) ∧
    ((exGridAB.place_word ['A', 'C', 'C', 'A'] 0 0 .down exTrieACCA).2.isSome = true ∧
      memCell exGridCCA.cells (1, 0) = true ∧
      2 ≤ (getRun exGridCCA.cells 1 0 .down).length ∧
      exTrieACCA.isValidWord (getRun exGridCCA.cells 1 0 .down) = false) := by
  decide

/-- Witness for C1: the one-step trace placing AD at the origin reaches
`exGridAD`, where the amended invariants hold. -/
theorem claim_C1_witness :
    execOps exTrieAD [GOp.placeOp ['A', 'D'] 0 0 .across] emptyGrid =
      some exGridAD ∧
    (KeysDistinct exGridAD.cells ∧ ConnectedCells exGridAD.cells ∧
      RunsValid exTrieAD exGridAD.cells ∧
      (∀ (g0 g1 : Grid) (w : List Char) (row col : Int) (d : Direction)
        (pw : PlacedWord), g0.place_word w row col d exTrieAD = (g1, some pw) →
        memCell g0.cells (row - d.val.1, col - d.val.2) = false ∧
        memCell g0.cells (row + (w.length : Int) * d.val.1,
          col + (w.length : Int) * d.val.2) = false)) := by
  have hexec : execOps exTrieAD [GOp.placeOp ['A', 'D'] 0 0 .across] emptyGrid =
      some exGridAD := by decide
  exact ⟨hexec, claim_C1_board_invariants exTrieAD
    [GOp.placeOp ['A', 'D'] 0 0 .across] exGridAD hexec⟩

end Peeler
